import Mathlib

/-!
Verification development for the SeaBattle repository (src/main.py).

The file shallowly embeds the program's core: the `Dot` coordinate type,
the `Ship` vessel type, the `Board` grid with `add_ship`, `contour`,
`shot` and `begin`, and the AI targeting heuristic `ai_brain`.
Machine integers of the source are modelled as `Int` (Python integers are
unbounded); the mutable board is passed explicitly; Python exceptions are
modelled by returning an `Except` result together with the board state at
the moment the function returns or raises.
-/

/-- Python class `Dot`: an (x, y) grid position with structural equality. -/
structure Dot where
  x : Int
  y : Int
deriving DecidableEq

/-- Python class `Ship`: origin `start`, orientation `horizontal`, `length`,
and remaining `lives`.  The constructor sets `lives = length` (see `mkShip`). -/
structure Ship where
  start : Dot
  horizontal : Bool
  length : Nat
  lives : Int
deriving DecidableEq

/-- `Ship.__init__(start, horizontal, length)`: lives is initialised to length. -/
def mkShip (start : Dot) (horizontal : Bool) (length : Nat) : Ship :=
  { start := start, horizontal := horizontal, length := length, lives := (length : Int) }

/-- `Ship.dots`: the cells the ship occupies, stepping along the orientation
axis from the origin (`cur_y += i` when horizontal, else `cur_x += i`). -/
def Ship.dots (s : Ship) : List Dot :=
  (List.range s.length).map fun (i : Nat) =>
    if s.horizontal then { x := s.start.x, y := s.start.y + (i : Int) }
    else { x := s.start.x + (i : Int), y := s.start.y }

/-- `Ship.is_hit(shot)`: membership of the shot in the ship's dots. -/
def Ship.is_hit (s : Ship) (shot : Dot) : Prop := shot ∈ s.dots

instance (s : Ship) (d : Dot) : Decidable (s.is_hit d) :=
  inferInstanceAs (Decidable (d ∈ s.dots))

/-- The three `BoardException` subclasses raised by the core operations. -/
inductive BoardErr where
  | out
  | busy
  | shipFailure
deriving DecidableEq

/-- Python class `Board`: size, cell matrix, busy list, ships, sunk counter,
and the rendering visibility flag. -/
structure Board where
  size : Int
  field : List (List String)
  busy : List Dot
  ships : List Ship
  count : Nat
  is_hidden : Bool
deriving DecidableEq

/-- `Board.__init__(size, is_hidden=False)`: an empty size-by-size grid of "O". -/
def mkBoard (size : Nat) : Board :=
  { size := size
    field := List.replicate size (List.replicate size "O")
    busy := []
    ships := []
    count := 0
    is_hidden := false }

/-- Assignment `field[x][y] = v`.  Every call site in the source is guarded by
an in-bounds check, so plain non-negative indexing is the exercised semantics. -/
def setCell (f : List (List String)) (x y : Int) (v : String) : List (List String) :=
  f.set x.toNat (((f.get? x.toNat).getD []).set y.toNat v)

/-- `Board.is_out(dot)`: the coordinate lies outside [0, size) x [0, size). -/
def Board.is_out (b : Board) (d : Dot) : Prop :=
  ¬ (0 ≤ d.x ∧ d.x < b.size ∧ 0 ≤ d.y ∧ d.y < b.size)

instance (b : Board) (d : Dot) : Decidable (b.is_out d) := by
  unfold Board.is_out; infer_instance

/-- Python `range(a, b)` over integers. -/
def intRange (a b : Int) : List Int :=
  (List.range (b - a).toNat).map fun (k : Nat) => a + (k : Int)

/-- The rectangle of cells visited by `Board.contour`: the loop reads
`(x, y) = (start.x, start.y)` when horizontal else `(start.y, start.x)`,
runs `i in range(x-1, x+2)`, `j in range(y-1, y+length+1)`, and forms
`Dot(i, j)` when horizontal else `Dot(j, i)`. -/
def contourDots (s : Ship) : List Dot :=
  let p := if s.horizontal then (s.start.x, s.start.y) else (s.start.y, s.start.x)
  (intRange (p.1 - 1) (p.1 + 2)).flatMap fun i =>
    (intRange (p.2 - 1) (p.2 + (s.length : Int) + 1)).map fun j =>
      if s.horizontal then ({ x := i, y := j } : Dot) else ({ x := j, y := i } : Dot)

/-- Loop body of `Board.contour`: skip a cell that is out of bounds or
already busy; otherwise mark it "." when visible and append it to busy. -/
def contourStep (is_visible : Bool) (acc : Board) (cur : Dot) : Board :=
  if acc.is_out cur ∨ cur ∈ acc.busy then acc
  else { acc with
         field := if is_visible then setCell acc.field cur.x cur.y "." else acc.field
         busy := acc.busy ++ [cur] }

/-- `Board.contour(ship, is_visible)`: run the loop body over the
contour rectangle. -/
def Board.contour (b : Board) (s : Ship) (is_visible : Bool) : Board :=
  (contourDots s).foldl (contourStep is_visible) b

/-- `Board.add_ship(ship)`: a full validation pre-pass over the ship's dots
(raising `BoardShipFailureException` if any dot is out of bounds or busy),
then marking each dot and appending it to busy, then the contour pass, then
appending the ship to the owned list.  The returned board is the state at
the moment the method returns or raises. -/
def placeStep (acc : Board) (d : Dot) : Board :=
  { acc with field := setCell acc.field d.x d.y "■", busy := acc.busy ++ [d] }

def Board.add_ship (b : Board) (s : Ship) : Except BoardErr Unit × Board :=
  if ∃ d ∈ s.dots, b.is_out d ∨ d ∈ b.busy then
    (.error .shipFailure, b)
  else
    let b1 := s.dots.foldl placeStep b
    let b2 := b1.contour s false
    (.ok (), { b2 with ships := b2.ships ++ [s] })

/-- The `for ship in self.ships` loop of `Board.shot`: find the first ship hit
by `d`, decrement its lives, and return the updated list with that ship. -/
def hitFirst (l : List Ship) (d : Dot) : Option (List Ship × Ship) :=
  match l with
  | [] => none
  | s :: rest =>
    if s.is_hit d then
      some ({ s with lives := s.lives - 1 } :: rest, { s with lives := s.lives - 1 })
    else
      match hitFirst rest d with
      | some (rest', hs) => some (s :: rest', hs)
      | none => none

/-- `Board.shot(d)`: raise `BoardOutException` when out of bounds, then
`BoardBusyException` when busy; otherwise append `d` to busy and resolve the
shot: a hit marks "X" and decrements lives, returning `true` when lives stay
positive, else incrementing the counter, running the visible contour pass and
returning `false`; a miss marks "." and returns `false`. -/
def Board.shot (b : Board) (d : Dot) : Except BoardErr Bool × Board :=
  if b.is_out d then (.error .out, b)
  else if d ∈ b.busy then (.error .busy, b)
  else
    let b1 := { b with busy := b.busy ++ [d] }
    match hitFirst b1.ships d with
    | some (ships', hs) =>
      let b2 := { b1 with ships := ships', field := setCell b1.field d.x d.y "X" }
      if 0 < hs.lives then (.ok true, b2)
      else (.ok false, ({ b2 with count := b2.count + 1 }).contour hs true)
    | none => (.ok false, { b1 with field := setCell b1.field d.x d.y "." })

/-- `Board.begin()`: reset the busy list for the shooting phase. -/
def Board.begin (b : Board) : Board := { b with busy := [] }

/-- First search pattern of `AI.ai_brain`: the main diagonal plus the two
offset diagonals `Dot(i, i+3)` and `Dot(i+3, i)`. -/
def diag1 : List Dot :=
  ((List.range 6).map fun (i : Nat) => ({ x := i, y := i } : Dot)) ++
  ((List.range 3).map fun (i : Nat) => ({ x := i, y := (i : Int) + 3 } : Dot)) ++
  ((List.range 3).map fun (i : Nat) => ({ x := (i : Int) + 3, y := i } : Dot))

/-- Second (fallback) search pattern of `AI.ai_brain`: `Dot(i, i-1)` for
i in 1..5, `Dot(i, i+2)` for i in 0..3, plus the two far corners. -/
def diag2 : List Dot :=
  ((intRange 1 6).map fun i => ({ x := i, y := i - 1 } : Dot)) ++
  ((List.range 4).map fun (i : Nat) => ({ x := i, y := (i : Int) + 2 } : Dot)) ++
  [{ x := 0, y := 5 }, { x := 5, y := 0 }]

/-- Final fallback of `AI.ai_brain`: all cells of the 6x6 grid. -/
def allCells : List Dot :=
  (List.range 6).flatMap fun (i : Nat) => (List.range 6).map fun (j : Nat) => ({ x := i, y := j } : Dot)

/-- `AI.ai_brain(enemy)`: candidate shots from the AI's `prev` hit list and
the enemy board's busy list.  Two remembered hits give the bracket phase, one
gives the cross phase, anything else the three-tier diagonal search. -/
def ai_brain (prev : List Dot) (enemyBusy : List Dot) : List Dot :=
  match prev with
  | [p0, p1] =>
    (if p0.x = p1.x then
      [{ x := p0.x, y := min p0.y p1.y - 1 }, { x := p0.x, y := max p0.y p1.y + 1 }]
     else
      [{ x := min p0.x p1.x - 1, y := p0.y }, { x := max p0.x p1.x + 1, y := p0.y }]
    ).filter fun c => decide (c ∉ enemyBusy)
  | [p0] =>
    ([{ x := p0.x + 1, y := p0.y }, { x := p0.x - 1, y := p0.y },
      { x := p0.x, y := p0.y + 1 }, { x := p0.x, y := p0.y - 1 }]
    ).filter fun c => decide (c ∉ enemyBusy)
  | _ =>
    let s1 := diag1.filter fun c => decide (c ∉ enemyBusy)
    if s1 ≠ [] then s1
    else
      let s2 := diag2.filter fun c => decide (c ∉ enemyBusy)
      if s2 ≠ [] then s2
      else allCells.filter fun c => decide (c ∉ enemyBusy)

/-!  Spec-side geometric notions and reachability relations. -/

/-- Within one step in the 8-neighbourhood (Chebyshev distance at most 1). -/
def near (p q : Dot) : Prop :=
  (p.x - q.x).natAbs ≤ 1 ∧ (p.y - q.y).natAbs ≤ 1

instance (p q : Dot) : Decidable (near p q) := by
  unfold near; infer_instance

/-- Orthogonal adjacency at distance exactly one. -/
def orthAdj (p q : Dot) : Prop :=
  (p.x = q.x ∧ (p.y - q.y).natAbs = 1) ∨ ((p.x - q.x).natAbs = 1 ∧ p.y = q.y)

/-- Vessel separation: no cell of one vessel is within one step of a cell of
the other (the no-touching rule enforced by the contour margin). -/
def ShipSep (s t : Ship) : Prop := ∀ p ∈ s.dots, ∀ q ∈ t.dots, ¬ near p q

/-- Boards reachable during the placement phase: a fresh board followed by
successful `add_ship` calls on constructor-built ships. -/
inductive SetupReach : Board → Prop
  | base (n : Nat) : SetupReach (mkBoard n)
  | add {b : Board} (p : Dot) (o : Bool) (l : Nat) :
      SetupReach b → (b.add_ship (mkShip p o l)).1 = .ok () →
      SetupReach ((b.add_ship (mkShip p o l)).2)

/-- Board evolution during the shooting phase: successful `shot` calls. -/
inductive FireReach : Board → Board → Prop
  | refl (b : Board) : FireReach b b
  | step {b0 b b' : Board} (d : Dot) (r : Bool) :
      FireReach b0 b → b.shot d = (.ok r, b') → FireReach b0 b'

/-- Boards reachable by an arbitrary interleaving of the three grid
operations (`add_ship` on vessels of positive length, `begin`, `shot`). -/
inductive OpReach : Board → Prop
  | base (n : Nat) : OpReach (mkBoard n)
  | add {b : Board} (p : Dot) (o : Bool) (l : Nat) :
      OpReach b → 1 ≤ l → (b.add_ship (mkShip p o l)).1 = .ok () →
      OpReach ((b.add_ship (mkShip p o l)).2)
  | beg {b : Board} : OpReach b → OpReach b.begin
  | fire {b : Board} (d : Dot) (r : Bool) :
      OpReach b → (b.shot d).1 = .ok r → OpReach ((b.shot d).2)

/-- `Player.move` update of the AI hit memory: append the target after a
repeat shot, clear it when the enemy sunk counter advanced. -/
def updPrev (prev : List Dot) (d : Dot) (r : Bool) (cOld cNew : Nat) : List Dot :=
  if cNew ≠ cOld then [] else if r then prev ++ [d] else prev

/-- States (AI hit memory, enemy board) reachable during play: the enemy
board is a fully placed fleet [3,2,2,1,1,1,1] on a 6x6 grid after `begin`,
and each step is a successful AI shot at an `ai_brain` candidate. -/
inductive Reach : List Dot → Board → Prop
  | init {b : Board} :
      SetupReach b → b.size = 6 → b.ships.map Ship.length = [3, 2, 2, 1, 1, 1, 1] →
      Reach [] b.begin
  | step {prev : List Dot} {b b' : Board} (d : Dot) (r : Bool) :
      Reach prev b → d ∈ ai_brain prev b.busy → b.shot d = (.ok r, b') →
      Reach (updPrev prev d r b.count b'.count) b'


/-!  Membership characterisations for ship cells and the contour rectangle. -/

lemma mem_intRange {a b x : Int} : x ∈ intRange a b ↔ a ≤ x ∧ x < b := by
  unfold intRange
  simp only [List.mem_map, List.mem_range]
  constructor
  · rintro ⟨k, hk, rfl⟩
    omega
  · rintro ⟨h1, h2⟩
    exact ⟨(x - a).toNat, by omega, by omega⟩

lemma Ship.mem_dots_horiz {s : Ship} (hh : s.horizontal = true) {d : Dot} :
    d ∈ s.dots ↔ ∃ i : Nat, i < s.length ∧ d.x = s.start.x ∧ d.y = s.start.y + (i : Int) := by
  unfold Ship.dots
  simp only [hh, if_true, List.mem_map, List.mem_range]
  constructor
  · rintro ⟨i, hi, rfl⟩
    exact ⟨i, hi, rfl, rfl⟩
  · rintro ⟨i, hi, hx, hy⟩
    exact ⟨i, hi, by cases d; simp_all⟩

lemma Ship.mem_dots_vert {s : Ship} (hh : s.horizontal = false) {d : Dot} :
    d ∈ s.dots ↔ ∃ i : Nat, i < s.length ∧ d.x = s.start.x + (i : Int) ∧ d.y = s.start.y := by
  unfold Ship.dots
  simp only [hh, Bool.false_eq_true, if_false, List.mem_map, List.mem_range]
  constructor
  · rintro ⟨i, hi, rfl⟩
    exact ⟨i, hi, rfl, rfl⟩
  · rintro ⟨i, hi, hx, hy⟩
    exact ⟨i, hi, by cases d; simp_all⟩

lemma mem_contourDots_horiz {s : Ship} (hh : s.horizontal = true) {c : Dot} :
    c ∈ contourDots s ↔
      s.start.x - 1 ≤ c.x ∧ c.x < s.start.x + 2 ∧
      s.start.y - 1 ≤ c.y ∧ c.y < s.start.y + (s.length : Int) + 1 := by
  unfold contourDots
  simp only [hh, if_true, List.mem_flatMap, List.mem_map, mem_intRange]
  constructor
  · rintro ⟨i, hi, j, hj, rfl⟩
    simp only
    omega
  · rintro ⟨h1, h2, h3, h4⟩
    exact ⟨c.x, by omega, c.y, by omega, by cases c; rfl⟩

lemma mem_contourDots_vert {s : Ship} (hh : s.horizontal = false) {c : Dot} :
    c ∈ contourDots s ↔
      s.start.y - 1 ≤ c.y ∧ c.y < s.start.y + 2 ∧
      s.start.x - 1 ≤ c.x ∧ c.x < s.start.x + (s.length : Int) + 1 := by
  unfold contourDots
  simp only [hh, Bool.false_eq_true, if_false, List.mem_flatMap, List.mem_map, mem_intRange]
  constructor
  · rintro ⟨i, hi, j, hj, rfl⟩
    simp only
    omega
  · rintro ⟨h1, h2, h3, h4⟩
    exact ⟨c.y, by omega, c.x, by omega, by cases c; rfl⟩

lemma near_symm {p q : Dot} (h : near p q) : near q p := by
  unfold near at *
  omega

lemma near_refl (p : Dot) : near p p := by
  unfold near
  omega

lemma orthAdj_symm {p q : Dot} (h : orthAdj p q) : orthAdj q p := by
  unfold orthAdj at *
  omega

lemma orthAdj_near {p q : Dot} (h : orthAdj p q) : near p q := by
  unfold orthAdj at h
  unfold near
  omega

/-- Every cell within one step of a ship cell lies in the contour rectangle. -/
lemma near_mem_contourDots {s : Ship} {d c : Dot}
    (hd : d ∈ s.dots) (hc : near c d) : c ∈ contourDots s := by
  unfold near at hc
  rcases hh : s.horizontal
  · rw [Ship.mem_dots_vert hh] at hd
    obtain ⟨i, hi, hx, hy⟩ := hd
    rw [mem_contourDots_vert hh]
    omega
  · rw [Ship.mem_dots_horiz hh] at hd
    obtain ⟨i, hi, hx, hy⟩ := hd
    rw [mem_contourDots_horiz hh]
    omega

/-- Ship cells lie in their own contour rectangle. -/
lemma dots_subset_contourDots {s : Ship} {d : Dot} (hd : d ∈ s.dots) :
    d ∈ contourDots s :=
  near_mem_contourDots hd (near_refl d)

/-- Every cell of the contour rectangle of a nonempty ship is within one
step of some ship cell. -/
lemma contourDots_mem_near {s : Ship} {c : Dot} (hlen : 1 ≤ s.length)
    (hc : c ∈ contourDots s) : ∃ d ∈ s.dots, near c d := by
  rcases hh : s.horizontal
  · rw [mem_contourDots_vert hh] at hc
    refine ⟨{ x := s.start.x + ((min (c.x - s.start.x) ((s.length : Int) - 1)).toNat : Int),
              y := s.start.y }, ?_, ?_⟩
    · rw [Ship.mem_dots_vert hh]
      exact ⟨(min (c.x - s.start.x) ((s.length : Int) - 1)).toNat, by omega, rfl, rfl⟩
    · unfold near
      simp only
      omega
  · rw [mem_contourDots_horiz hh] at hc
    refine ⟨{ x := s.start.x,
              y := s.start.y + ((min (c.y - s.start.y) ((s.length : Int) - 1)).toNat : Int) },
            ?_, ?_⟩
    · rw [Ship.mem_dots_horiz hh]
      exact ⟨(min (c.y - s.start.y) ((s.length : Int) - 1)).toNat, by omega, rfl, rfl⟩
    · unfold near
      simp only
      omega

/-!  Lemmas about the contour pass. -/

lemma contourStep_size (v : Bool) (acc : Board) (cur : Dot) :
    (contourStep v acc cur).size = acc.size := by
  unfold contourStep
  split <;> rfl

lemma contourStep_ships (v : Bool) (acc : Board) (cur : Dot) :
    (contourStep v acc cur).ships = acc.ships := by
  unfold contourStep
  split <;> rfl

lemma contourStep_count (v : Bool) (acc : Board) (cur : Dot) :
    (contourStep v acc cur).count = acc.count := by
  unfold contourStep
  split <;> rfl

lemma contourStep_busy_mono {acc : Board} {cur : Dot} (v : Bool) :
    acc.busy ⊆ (contourStep v acc cur).busy := by
  unfold contourStep
  split
  · exact fun c hc => hc
  · intro c hc
    simp only [List.mem_append]
    exact Or.inl hc

lemma contourStep_busy_subset {acc : Board} {cur : Dot} (v : Bool) :
    ∀ c ∈ (contourStep v acc cur).busy, c ∈ acc.busy ∨ c = cur := by
  unfold contourStep
  split
  · exact fun c hc => Or.inl hc
  · intro c hc
    simp only [List.mem_append, List.mem_singleton] at hc
    exact hc

lemma contourFold_size (v : Bool) (l : List Dot) :
    ∀ acc : Board, (l.foldl (contourStep v) acc).size = acc.size := by
  induction l with
  | nil => intro acc; rfl
  | cons hd tl ih =>
    intro acc
    simp only [List.foldl_cons]
    rw [ih, contourStep_size]

lemma contourFold_ships (v : Bool) (l : List Dot) :
    ∀ acc : Board, (l.foldl (contourStep v) acc).ships = acc.ships := by
  induction l with
  | nil => intro acc; rfl
  | cons hd tl ih =>
    intro acc
    simp only [List.foldl_cons]
    rw [ih, contourStep_ships]

lemma contourFold_count (v : Bool) (l : List Dot) :
    ∀ acc : Board, (l.foldl (contourStep v) acc).count = acc.count := by
  induction l with
  | nil => intro acc; rfl
  | cons hd tl ih =>
    intro acc
    simp only [List.foldl_cons]
    rw [ih, contourStep_count]

lemma contourFold_busy_mono (v : Bool) (l : List Dot) :
    ∀ acc : Board, acc.busy ⊆ (l.foldl (contourStep v) acc).busy := by
  induction l with
  | nil => intro acc; exact fun c hc => hc
  | cons hd tl ih =>
    intro acc
    exact fun c hc => ih (contourStep v acc hd) (contourStep_busy_mono v hc)

lemma contourFold_busy_subset (v : Bool) (l : List Dot) :
    ∀ acc : Board, ∀ c ∈ (l.foldl (contourStep v) acc).busy, c ∈ acc.busy ∨ c ∈ l := by
  induction l with
  | nil => intro acc c hc; exact Or.inl hc
  | cons hd tl ih =>
    intro acc c hc
    rcases ih (contourStep v acc hd) c hc with h | h
    · rcases contourStep_busy_subset v c h with h2 | h2
      · exact Or.inl h2
      · exact Or.inr (by simp [h2])
    · exact Or.inr (List.mem_cons_of_mem hd h)

lemma is_out_congr {b b' : Board} (h : b.size = b'.size) (c : Dot) :
    b.is_out c ↔ b'.is_out c := by
  unfold Board.is_out
  rw [h]

lemma contourFold_covers (v : Bool) (l : List Dot) :
    ∀ acc : Board, ∀ c ∈ l, ¬ acc.is_out c → c ∈ (l.foldl (contourStep v) acc).busy := by
  induction l with
  | nil => intro acc c hc; exact absurd hc (List.not_mem_nil c)
  | cons hd tl ih =>
    intro acc c hc hin
    simp only [List.foldl_cons]
    rcases List.mem_cons.mp hc with rfl | h
    · apply contourFold_busy_mono
      unfold contourStep
      split
      · rename_i hcond
        rcases hcond with h1 | h1
        · exact absurd h1 hin
        · exact h1
      · simp
    · apply ih
      · exact h
      · rwa [is_out_congr (contourStep_size v acc hd).symm] at hin
lemma contour_size (b : Board) (s : Ship) (v : Bool) : (b.contour s v).size = b.size :=
  contourFold_size v (contourDots s) b

lemma contour_ships (b : Board) (s : Ship) (v : Bool) : (b.contour s v).ships = b.ships :=
  contourFold_ships v (contourDots s) b

lemma contour_count (b : Board) (s : Ship) (v : Bool) : (b.contour s v).count = b.count :=
  contourFold_count v (contourDots s) b

lemma contour_busy_mono (b : Board) (s : Ship) (v : Bool) : b.busy ⊆ (b.contour s v).busy :=
  contourFold_busy_mono v (contourDots s) b

lemma contour_busy_subset (b : Board) (s : Ship) (v : Bool) :
    ∀ c ∈ (b.contour s v).busy, c ∈ b.busy ∨ c ∈ contourDots s :=
  contourFold_busy_subset v (contourDots s) b

lemma contour_covers (b : Board) (s : Ship) (v : Bool) :
    ∀ c ∈ contourDots s, ¬ b.is_out c → c ∈ (b.contour s v).busy :=
  contourFold_covers v (contourDots s) b

/-!  Lemmas about ship placement. -/

lemma placeFold_busy (l : List Dot) :
    ∀ acc : Board, (l.foldl placeStep acc).busy = acc.busy ++ l := by
  induction l with
  | nil => intro acc; simp
  | cons hd tl ih =>
    intro acc
    simp only [List.foldl_cons, ih]
    unfold placeStep
    simp

lemma placeFold_size (l : List Dot) :
    ∀ acc : Board, (l.foldl placeStep acc).size = acc.size := by
  induction l with
  | nil => intro acc; rfl
  | cons hd tl ih =>
    intro acc
    simp only [List.foldl_cons, ih]
    rfl

lemma placeFold_ships (l : List Dot) :
    ∀ acc : Board, (l.foldl placeStep acc).ships = acc.ships := by
  induction l with
  | nil => intro acc; rfl
  | cons hd tl ih =>
    intro acc
    simp only [List.foldl_cons, ih]
    rfl

lemma placeFold_count (l : List Dot) :
    ∀ acc : Board, (l.foldl placeStep acc).count = acc.count := by
  induction l with
  | nil => intro acc; rfl
  | cons hd tl ih =>
    intro acc
    simp only [List.foldl_cons, ih]
    rfl

lemma add_ship_ok_iff {b : Board} {s : Ship} :
    (b.add_ship s).1 = .ok () ↔ ∀ d ∈ s.dots, ¬ b.is_out d ∧ d ∉ b.busy := by
  unfold Board.add_ship
  split
  · rename_i hcond
    simp only [reduceCtorEq, false_iff]
    push_neg
    obtain ⟨d, hd, hor⟩ := hcond
    exact ⟨d, hd, fun hno => hor.resolve_left hno⟩
  · rename_i hcond
    push_neg at hcond
    simp only [true_iff]
    exact hcond

lemma add_ship_fail {b : Board} {s : Ship} {e : BoardErr}
    (h : (b.add_ship s).1 = .error e) :
    e = .shipFailure ∧ (b.add_ship s).2 = b ∧ ∃ d ∈ s.dots, b.is_out d ∨ d ∈ b.busy := by
  unfold Board.add_ship at h ⊢
  split at h
  · rename_i hcond
    simp only [Except.error.injEq] at h
    refine ⟨h.symm, ?_, hcond⟩
    split
    · rfl
    · rename_i hcond2
      exact absurd hcond hcond2
  · simp at h

lemma add_ship_fail_iff {b : Board} {s : Ship} :
    (b.add_ship s).1 = .error .shipFailure ↔ ∃ d ∈ s.dots, b.is_out d ∨ d ∈ b.busy := by
  constructor
  · intro h
    exact (add_ship_fail h).2.2
  · intro hcond
    unfold Board.add_ship
    split
    · rfl
    · rename_i h2
      exact absurd hcond h2

lemma add_ship_ok_effects {b : Board} {s : Ship} (h : (b.add_ship s).1 = .ok ()) :
    (b.add_ship s).2.ships = b.ships ++ [s] ∧
    (b.add_ship s).2.size = b.size ∧
    (b.add_ship s).2.count = b.count ∧
    (∀ c ∈ (b.add_ship s).2.busy, c ∈ b.busy ∨ c ∈ contourDots s) ∧
    b.busy ⊆ (b.add_ship s).2.busy ∧
    (∀ c ∈ contourDots s, ¬ b.is_out c → c ∈ (b.add_ship s).2.busy) := by
  have hcond : ¬ ∃ d ∈ s.dots, b.is_out d ∨ d ∈ b.busy := by
    intro hc
    rw [show (b.add_ship s).1 = .error .shipFailure from add_ship_fail_iff.mpr hc] at h
    simp at h
  unfold Board.add_ship
  rw [if_neg hcond]
  simp only
  constructor
  · rw [contour_ships, placeFold_ships]
  constructor
  · rw [contour_size, placeFold_size]
  constructor
  · rw [contour_count, placeFold_count]
  constructor
  · intro c hc
    rcases contour_busy_subset _ s false c hc with h2 | h2
    · rw [placeFold_busy] at h2
      rcases List.mem_append.mp h2 with h3 | h3
      · exact Or.inl h3
      · exact Or.inr (dots_subset_contourDots h3)
    · exact Or.inr h2
  constructor
  · intro c hc
    apply contour_busy_mono
    rw [placeFold_busy]
    exact List.mem_append.mpr (Or.inl hc)
  · intro c hc hout
    apply contour_covers
    · exact hc
    · rwa [is_out_congr (placeFold_size s.dots b)]

/-!  Lemmas about shot resolution. -/

lemma contourDots_lives (s : Ship) (k : Int) :
    contourDots { s with lives := k } = contourDots s := rfl

lemma hitFirst_none_iff {l : List Ship} {d : Dot} :
    hitFirst l d = none ↔ ∀ t ∈ l, d ∉ t.dots := by
  induction l with
  | nil => simp [hitFirst]
  | cons s rest ih =>
    rw [hitFirst]
    split
    · rename_i hhit
      simp only [reduceCtorEq, false_iff]
      push_neg
      exact ⟨s, List.mem_cons_self s rest, hhit⟩
    · rename_i hhit
      split
      · rename_i pr hrest
        simp only [reduceCtorEq, false_iff]
        push_neg
        have : ¬ (hitFirst rest d = none) := by simp [hrest]
        rw [ih] at this
        push_neg at this
        obtain ⟨t, ht, hd⟩ := this
        exact ⟨t, List.mem_cons_of_mem s ht, hd⟩
      · rename_i hrest
        simp only [true_iff]
        intro t ht
        rcases List.mem_cons.mp ht with rfl | ht2
        · exact hhit
        · exact (ih.mp hrest) t ht2

lemma hitFirst_some_ex {l : List Ship} {d : Dot} {l' : List Ship} {hs : Ship}
    (h : hitFirst l d = some (l', hs)) :
    ∃ l1 s l2, l = l1 ++ s :: l2 ∧ (∀ t ∈ l1, d ∉ t.dots) ∧ d ∈ s.dots ∧
      hs = { s with lives := s.lives - 1 } ∧ l' = l1 ++ hs :: l2 := by
  induction l generalizing l' with
  | nil => simp [hitFirst] at h
  | cons s rest ih =>
    rw [hitFirst] at h
    split at h
    · rename_i hhit
      simp only [Option.some.injEq, Prod.mk.injEq] at h
      refine ⟨[], s, rest, by simp, by simp, hhit, h.2.symm, ?_⟩
      rw [← h.1, ← h.2]
      simp
    · rename_i hhit
      split at h
      · rename_i pr hrest
        simp only [Option.some.injEq, Prod.mk.injEq] at h
        rw [h.2] at hrest
        obtain ⟨l1, s0, l2, heq, hclean, hmem, hhs, hl'⟩ := ih hrest
        refine ⟨s :: l1, s0, l2, by rw [heq]; rfl, ?_, hmem, hhs, ?_⟩
        · intro t ht
          rcases List.mem_cons.mp ht with rfl | ht2
          · exact hhit
          · exact hclean t ht2
        · rw [← h.1, hl']
          rfl
      · exact absurd h (by simp)

lemma shot_err_snd {b : Board} {d : Dot} {e : BoardErr}
    (h : (b.shot d).1 = .error e) : (b.shot d).2 = b := by
  unfold Board.shot at h ⊢
  split
  · rfl
  · split
    · rfl
    · rename_i h1 h2
      rw [if_neg h1, if_neg h2] at h
      simp only at h
      split at h
      · split at h <;> simp at h
      · simp at h

lemma shot_out {b : Board} {d : Dot} (h : b.is_out d) :
    b.shot d = (.error .out, b) := by
  unfold Board.shot
  rw [if_pos h]

lemma shot_busy {b : Board} {d : Dot} (h1 : ¬ b.is_out d) (h2 : d ∈ b.busy) :
    b.shot d = (.error .busy, b) := by
  unfold Board.shot
  rw [if_neg h1, if_pos h2]

lemma shot_count_mono (b : Board) (d : Dot) :
    (b.shot d).2.count = b.count ∨ (b.shot d).2.count = b.count + 1 := by
  unfold Board.shot
  split
  · exact Or.inl rfl
  · split
    · exact Or.inl rfl
    · simp only
      split
      · split
        · exact Or.inl rfl
        · rename_i heq hlv
          right
          rw [contour_count]
      · exact Or.inl rfl

lemma shot_ok_cases {b b' : Board} {d : Dot} {r : Bool}
    (h : b.shot d = (.ok r, b')) :
    ¬ b.is_out d ∧ d ∉ b.busy ∧ b'.size = b.size ∧
    (((∀ t ∈ b.ships, d ∉ t.dots) ∧ r = false ∧ b'.ships = b.ships ∧
       b'.busy = b.busy ++ [d] ∧ b'.count = b.count) ∨
     (∃ l1 s l2, b.ships = l1 ++ s :: l2 ∧ (∀ t ∈ l1, d ∉ t.dots) ∧ d ∈ s.dots ∧
       b'.ships = l1 ++ { s with lives := s.lives - 1 } :: l2 ∧
       ((0 < s.lives - 1 ∧ r = true ∧ b'.busy = b.busy ++ [d] ∧ b'.count = b.count) ∨
        (s.lives - 1 ≤ 0 ∧ r = false ∧ b'.count = b.count + 1 ∧
         (∀ c ∈ b'.busy, c ∈ b.busy ++ [d] ∨ c ∈ contourDots s) ∧
         (b.busy ++ [d]) ⊆ b'.busy ∧
         (∀ c ∈ contourDots s, ¬ b.is_out c → c ∈ b'.busy))))) := by
  unfold Board.shot at h
  split at h
  · simp at h
  · split at h
    · simp at h
    · rename_i hout hbusy
      refine ⟨hout, hbusy, ?_⟩
      simp only at h
      split at h
      · rename_i pr heq
        obtain ⟨ships', hs⟩ := pr
        obtain ⟨l1, s, l2, hships, hclean, hmem, hhs, hl'⟩ := hitFirst_some_ex heq
        split at h
        · rename_i hlv
          simp only [Prod.mk.injEq, Except.ok.injEq] at h
          obtain ⟨hr, hb'⟩ := h
          subst hb'
          refine ⟨rfl, Or.inr ⟨l1, s, l2, hships, hclean, hmem, ?_, Or.inl ⟨?_, hr.symm, rfl, rfl⟩⟩⟩
          · rw [hl', hhs]
          · rw [hhs] at hlv
            exact hlv
        · rename_i hlv
          simp only [Prod.mk.injEq, Except.ok.injEq] at h
          obtain ⟨hr, hb'⟩ := h
          subst hb'
          push_neg at hlv
          rw [hhs] at hlv
          simp only at hlv
          constructor
          · rw [contour_size]
          refine Or.inr ⟨l1, s, l2, hships, hclean, hmem, ?_, Or.inr ⟨hlv, hr.symm, ?_, ?_, ?_, ?_⟩⟩
          · rw [contour_ships]
            simp only
            rw [hl', hhs]
          · rw [contour_count]
          · intro c hc
            rcases contour_busy_subset _ _ _ c hc with h2 | h2
            · exact Or.inl h2
            · right
              rw [hhs, contourDots_lives] at h2
              exact h2
          · intro c hc
            apply contour_busy_mono
            exact hc
          · intro c hc hco
            apply contour_covers
            · rw [hhs, contourDots_lives]
              exact hc
            · exact hco
      · rename_i hnone
        simp only [Prod.mk.injEq, Except.ok.injEq] at h
        obtain ⟨hr, hb'⟩ := h
        subst hb'
        refine ⟨rfl, Or.inl ⟨?_, hr.symm, rfl, rfl, rfl⟩⟩
        rw [← hitFirst_none_iff]
        exact hnone

lemma shot_ok_exists {b : Board} {d : Dot} (h1 : ¬ b.is_out d) (h2 : d ∉ b.busy) :
    ∃ r b', b.shot d = (.ok r, b') := by
  unfold Board.shot
  rw [if_neg h1, if_neg h2]
  simp only
  split
  · split
    · exact ⟨true, _, rfl⟩
    · exact ⟨false, _, rfl⟩
  · exact ⟨false, _, rfl⟩

lemma shot_ok_busy_mem {b b' : Board} {d : Dot} {r : Bool}
    (h : b.shot d = (.ok r, b')) : d ∈ b'.busy := by
  obtain ⟨-, -, -, hc⟩ := shot_ok_cases h
  have hd : d ∈ b.busy ++ [d] := by simp
  rcases hc with ⟨-, -, -, hb, -⟩ | ⟨l1, s, l2, -, -, -, -, hsub⟩
  · rw [hb]
    exact hd
  · rcases hsub with ⟨-, -, hb, -⟩ | ⟨-, -, -, -, hsub2, -⟩
    · rw [hb]
      exact hd
    · exact hsub2 hd

/-- A concrete mid-game board used by the witnesses: a horizontal length-2
ship at the origin on a 6x6 grid, after `begin`. -/
def exampleBoard : Board := (((mkBoard 6).add_ship (mkShip ⟨0, 0⟩ true 2)).2).begin

/-- C1: for an in-bounds, not-yet-busy coordinate on a grid whose vessels do
not overlap at that coordinate, `Board.shot` completes normally and returns
`true` exactly when the coordinate belongs to an owned vessel whose lives
remain positive after the decrement; it returns `false` on a miss and on a
sink. -/
theorem c1_fire_repeat_iff (b : Board) (d : Dot)
    (hin : ¬ b.is_out d) (hbusy : d ∉ b.busy)
    (huniq : ∀ t1 ∈ b.ships, ∀ t2 ∈ b.ships, d ∈ t1.dots → d ∈ t2.dots → t1 = t2) :
    ((b.shot d).1 = .ok true ↔ ∃ s ∈ b.ships, d ∈ s.dots ∧ 0 < s.lives - 1) ∧
    ((b.shot d).1 = .ok true ∨ (b.shot d).1 = .ok false) := by
  obtain ⟨r, b', hsh⟩ := shot_ok_exists hin hbusy
  obtain ⟨-, -, -, hc⟩ := shot_ok_cases hsh
  have hfst : (b.shot d).1 = .ok r := by rw [hsh]
  rcases hc with ⟨hmiss, hr, -⟩ | ⟨l1, s, l2, hships, -, hmem, -, hsub⟩
  · subst hr
    rw [hfst]
    refine ⟨⟨fun h => by simp at h, fun h => ?_⟩, Or.inr rfl⟩
    obtain ⟨t, ht, hdt, -⟩ := h
    exact absurd hdt (hmiss t ht)
  · have hsmem : s ∈ b.ships := by
      rw [hships]
      simp
    rcases hsub with ⟨hlv, hr, -⟩ | ⟨hlv, hr, -⟩
    · subst hr
      rw [hfst]
      exact ⟨⟨fun _ => ⟨s, hsmem, hmem, hlv⟩, fun _ => rfl⟩, Or.inl rfl⟩
    · subst hr
      rw [hfst]
      refine ⟨⟨fun h => by simp at h, fun h => ?_⟩, Or.inr rfl⟩
      obtain ⟨t, ht, hdt, hlt⟩ := h
      rw [huniq t ht s hsmem hdt hmem] at hlt
      omega

/-- C1 witness: shooting the origin cell of a fresh length-2 ship reports a
repeat shot, matching the predicate, at a concrete board. -/
theorem c1_fire_repeat_iff_witness :
    (((exampleBoard.shot ⟨0, 0⟩).1 = .ok true ↔
       ∃ s ∈ exampleBoard.ships, (⟨0, 0⟩ : Dot) ∈ s.dots ∧ 0 < s.lives - 1) ∧
     ((exampleBoard.shot ⟨0, 0⟩).1 = .ok true ∨ (exampleBoard.shot ⟨0, 0⟩).1 = .ok false)) :=
  c1_fire_repeat_iff exampleBoard ⟨0, 0⟩ (by decide) (by decide) (by decide)

/-- C2: `Board.add_ship` raises the placement-failed error exactly when some
cell the vessel would occupy is out of bounds or already busy, and any
failure leaves the whole grid state identical to before the call. -/
theorem c2_add_vessel_atomic (b : Board) (s : Ship) :
    ((b.add_ship s).1 = .error .shipFailure ↔ ∃ d ∈ s.dots, b.is_out d ∨ d ∈ b.busy) ∧
    (∀ e, (b.add_ship s).1 = .error e → (b.add_ship s).2 = b) := by
  exact ⟨add_ship_fail_iff, fun e h => (add_ship_fail h).2.1⟩

/-- C2 witness: a placement sticking out of the board fails and leaves the
fresh board unchanged. -/
theorem c2_add_vessel_atomic_witness :
    ((mkBoard 6).add_ship (mkShip ⟨0, 5⟩ true 2)).2 = mkBoard 6 :=
  (c2_add_vessel_atomic (mkBoard 6) (mkShip ⟨0, 5⟩ true 2)).2 .shipFailure rfl

/-- C3: after a successful `Board.add_ship`, every in-bounds cell within one
step (8-neighbourhood) of a vessel cell — that is, the rectangle one cell
beyond the vessel's bounding box — is in the busy set. -/
theorem c3_margin_in_busy (b : Board) (s : Ship)
    (hok : (b.add_ship s).1 = .ok ()) :
    ∀ c : Dot, (∃ d ∈ s.dots, near c d) → ¬ (b.add_ship s).2.is_out c →
      c ∈ (b.add_ship s).2.busy := by
  obtain ⟨-, hsize, -, -, -, hcov⟩ := add_ship_ok_effects hok
  intro c hnear hout
  obtain ⟨d, hd, hnd⟩ := hnear
  apply hcov
  · exact near_mem_contourDots hd hnd
  · rwa [is_out_congr hsize.symm]

/-- C3 witness: the diagonal neighbour (1, 2) of the placed ship's cell
(0, 1) is busy after the placement. -/
theorem c3_margin_in_busy_witness :
    (⟨1, 2⟩ : Dot) ∈ ((mkBoard 6).add_ship (mkShip ⟨0, 0⟩ true 2)).2.busy :=
  c3_margin_in_busy (mkBoard 6) (mkShip ⟨0, 0⟩ true 2) rfl ⟨1, 2⟩
    ⟨⟨0, 1⟩, by decide, by decide⟩ (by decide)

/-- C10: `Board.shot` is atomic on error: whenever it raises (out of bounds
or already shot), the whole grid state is identical to before the call. -/
theorem c10_fire_atomic_on_error :
    ∀ (b : Board) (d : Dot) (e : BoardErr),
      (b.shot d).1 = .error e → (b.shot d).2 = b :=
  fun _ _ _ h => shot_err_snd h

/-- C10 witness: an out-of-bounds shot leaves the fresh board unchanged. -/
theorem c10_fire_atomic_on_error_witness :
    ((mkBoard 6).shot ⟨9, 9⟩).2 = mkBoard 6 :=
  c10_fire_atomic_on_error (mkBoard 6) ⟨9, 9⟩ .out rfl

/-- C8: after any completed `Board.shot` at a coordinate (hit, sunk or miss),
shooting the same coordinate again raises the busy-cell error; and `shot`
raises the out-of-bounds error for any coordinate outside the grid. -/
theorem c8_fire_twice_busy_and_out (b : Board) (d : Dot) :
    (∀ r b', b.shot d = (.ok r, b') → (b'.shot d).1 = .error .busy) ∧
    (b.is_out d → (b.shot d).1 = .error .out) := by
  constructor
  · intro r b' h
    obtain ⟨hout, -, hsize, -⟩ := shot_ok_cases h
    have hout' : ¬ b'.is_out d := by rwa [is_out_congr hsize]
    rw [shot_busy hout' (shot_ok_busy_mem h)]
  · intro h
    rw [shot_out h]

/-- C8 witness: at a concrete board, re-shooting a just-shot cell raises
busy, and shooting outside raises out-of-bounds. -/
theorem c8_fire_twice_busy_and_out_witness :
    (((exampleBoard.shot ⟨3, 3⟩).2).shot ⟨3, 3⟩).1 = .error .busy ∧
    ((mkBoard 6).shot ⟨7, 0⟩).1 = .error .out :=
  ⟨(c8_fire_twice_busy_and_out exampleBoard ⟨3, 3⟩).1 false ((exampleBoard.shot ⟨3, 3⟩).2) rfl,
   (c8_fire_twice_busy_and_out (mkBoard 6) ⟨7, 0⟩).2 (by decide)⟩

/-- C4: with exactly two remembered hits, the `ai_brain` candidate set is
exactly the two cells one step beyond each end of the line the hits define
(same row when they share a row, same column otherwise), minus the enemy's
busy cells; in particular for hits (2,2) and (2,3) with no busy cells it is
exactly (2,1) and (2,4). -/
theorem c4_bracket_phase_candidates :
    (∀ p0 p1 : Dot, ∀ busy : List Dot, ∀ c : Dot,
      c ∈ ai_brain [p0, p1] busy ↔
        (c ∉ busy ∧
          (if p0.x = p1.x then
            c = { x := p0.x, y := min p0.y p1.y - 1 } ∨
            c = { x := p0.x, y := max p0.y p1.y + 1 }
           else
            c = { x := min p0.x p1.x - 1, y := p0.y } ∨
            c = { x := max p0.x p1.x + 1, y := p0.y }))) ∧
    ai_brain [⟨2, 2⟩, ⟨2, 3⟩] [] = [⟨2, 1⟩, ⟨2, 4⟩] := by
  constructor
  · intro p0 p1 busy c
    by_cases hx : p0.x = p1.x <;>
      simp [ai_brain, hx, List.mem_filter, and_comm, or_comm]
  · decide

/-- C9: with exactly one remembered hit, the `ai_brain` candidate set is
exactly the four orthogonal neighbours of that hit minus the enemy's busy
cells; in particular for hit (3,3) with no busy cells it is exactly the four
orthogonal neighbours of (3,3). -/
theorem c9_cross_phase_candidates :
    (∀ p : Dot, ∀ busy : List Dot, ∀ c : Dot,
      c ∈ ai_brain [p] busy ↔
        (c ∉ busy ∧
          (c = { x := p.x + 1, y := p.y } ∨ c = { x := p.x - 1, y := p.y } ∨
           c = { x := p.x, y := p.y + 1 } ∨ c = { x := p.x, y := p.y - 1 }))) ∧
    ai_brain [⟨3, 3⟩] [] = [⟨4, 3⟩, ⟨2, 3⟩, ⟨3, 4⟩, ⟨3, 2⟩] := by
  constructor
  · intro p busy c
    simp [ai_brain, List.mem_filter, and_comm]
  · decide

/-- C6: with no remembered hits, `ai_brain` returns the primary diagonal
pattern minus busy cells; when that is empty, the offset fallback pattern
minus busy cells; and when that is also empty, all grid cells minus busy
cells — in exactly that priority order. -/
theorem c6_search_phase_three_tiers :
    ∀ busy : List Dot,
      (diag1.filter (fun c => decide (c ∉ busy)) ≠ [] →
        ai_brain [] busy = diag1.filter (fun c => decide (c ∉ busy))) ∧
      (diag1.filter (fun c => decide (c ∉ busy)) = [] →
        diag2.filter (fun c => decide (c ∉ busy)) ≠ [] →
        ai_brain [] busy = diag2.filter (fun c => decide (c ∉ busy))) ∧
      (diag1.filter (fun c => decide (c ∉ busy)) = [] →
        diag2.filter (fun c => decide (c ∉ busy)) = [] →
        ai_brain [] busy = allCells.filter (fun c => decide (c ∉ busy))) := by
  intro busy
  have hdef : ai_brain [] busy =
      (if diag1.filter (fun c => decide (c ∉ busy)) ≠ [] then
        diag1.filter (fun c => decide (c ∉ busy))
       else if diag2.filter (fun c => decide (c ∉ busy)) ≠ [] then
        diag2.filter (fun c => decide (c ∉ busy))
       else allCells.filter (fun c => decide (c ∉ busy))) := rfl
  refine ⟨fun h1 => ?_, fun h1 h2 => ?_, fun h1 h2 => ?_⟩
  · rw [hdef, if_pos h1]
  · rw [hdef, if_neg (by rw [h1]; exact fun h => h rfl), if_pos h2]
  · rw [hdef, if_neg (by rw [h1]; exact fun h => h rfl),
        if_neg (by rw [h2]; exact fun h => h rfl)]

/-- C6 witness: with no busy cells the primary pattern is nonempty and is
returned unchanged. -/
theorem c6_search_phase_three_tiers_witness :
    ai_brain [] [] = diag1.filter (fun c => decide (c ∉ ([] : List Dot))) :=
  (c6_search_phase_three_tiers []).1 (by decide)

/-!  Invariants of the placement phase. -/

/-- Invariant maintained by `SetupReach`: vessels are in bounds with their
margins busy, lives are full, the counter is zero, and vessels are pairwise
separated. -/
structure SInv (b : Board) : Prop where
  inb : ∀ s ∈ b.ships, ∀ d ∈ s.dots, ¬ b.is_out d
  margin : ∀ s ∈ b.ships, ∀ c ∈ contourDots s, ¬ b.is_out c → c ∈ b.busy
  livesFull : ∀ s ∈ b.ships, s.lives = (s.length : Int)
  countZero : b.count = 0
  sep : b.ships.Pairwise ShipSep

lemma setup_inv {b : Board} (h : SetupReach b) : SInv b := by
  induction h with
  | base n =>
    exact ⟨by simp [mkBoard], by simp [mkBoard], by simp [mkBoard], rfl, by simp [mkBoard]⟩
  | add p o l hreach hok ih =>
    rename_i b0
    obtain ⟨hships, hsize, hcount, hbusysub, hbusymono, hcov⟩ := add_ship_ok_effects hok
    have hvalid := add_ship_ok_iff.mp hok
    refine ⟨?_, ?_, ?_, ?_, ?_⟩
    · intro t ht d hd
      rw [is_out_congr hsize]
      rw [hships] at ht
      rcases List.mem_append.mp ht with h1 | h1
      · exact ih.inb t h1 d hd
      · rw [List.mem_singleton] at h1
        subst h1
        exact (hvalid d hd).1
    · intro t ht c hc hout
      rw [is_out_congr hsize] at hout
      rw [hships] at ht
      rcases List.mem_append.mp ht with h1 | h1
      · exact hbusymono (ih.margin t h1 c hc hout)
      · rw [List.mem_singleton] at h1
        subst h1
        exact hcov c hc hout
    · intro t ht
      rw [hships] at ht
      rcases List.mem_append.mp ht with h1 | h1
      · exact ih.livesFull t h1
      · rw [List.mem_singleton] at h1
        subst h1
        rfl
    · rw [hcount]
      exact ih.countZero
    · rw [hships]
      rw [List.pairwise_append]
      refine ⟨ih.sep, List.pairwise_singleton _ _, ?_⟩
      intro t ht sn hsn
      rw [List.mem_singleton] at hsn
      subst hsn
      intro pt hpt q hq hnear
      have h1 := (hvalid q hq).1
      have h2 := (hvalid q hq).2
      exact h2 (ih.margin t ht q (near_mem_contourDots hpt (near_symm hnear)) h1)

/-!  Invariant of the shooting phase used for the sunk counter. -/

/-- Invariant maintained during the shooting phase: the counter equals the
number of sunk vessels, lives stay nonnegative, vessels are in bounds, and
every cell of a sunk vessel is busy. -/
structure HInv (b : Board) : Prop where
  countEq : b.count = (b.ships.filter fun s => decide (s.lives = 0)).length
  nonneg : ∀ s ∈ b.ships, 0 ≤ s.lives
  inb : ∀ s ∈ b.ships, ∀ d ∈ s.dots, ¬ b.is_out d
  sunkBusy : ∀ s ∈ b.ships, s.lives = 0 → ∀ d ∈ s.dots, d ∈ b.busy

lemma hinv_begin {b : Board} (hs : SInv b) (hlen : ∀ s ∈ b.ships, 1 ≤ s.length) :
    HInv b.begin := by
  refine ⟨?_, ?_, ?_, ?_⟩
  · show b.count = _
    rw [hs.countZero]
    have : (b.ships.filter fun s => decide (s.lives = 0)) = [] := by
      rw [List.filter_eq_nil_iff]
      intro t ht
      have h1 := hs.livesFull t ht
      have h2 := hlen t ht
      simp only [decide_eq_true_eq]
      omega
    rw [show (b.begin.ships = b.ships) from rfl, this]
    rfl
  · intro t ht
    have h1 := hs.livesFull t ht
    omega
  · exact hs.inb
  · intro t ht h0 d hd
    have h1 := hs.livesFull t ht
    have h2 := hlen t ht
    omega

lemma hinv_shot {b b' : Board} {d : Dot} {r : Bool}
    (h : HInv b) (hsh : b.shot d = (.ok r, b')) : HInv b' := by
  obtain ⟨hout, hbusy, hsize, hc⟩ := shot_ok_cases hsh
  rcases hc with ⟨hmiss, hr, hships, hbusyeq, hcount⟩ |
    ⟨l1, s, l2, hships, hclean, hmem, hships', hsub⟩
  · refine ⟨?_, ?_, ?_, ?_⟩
    · rw [hcount, hships, h.countEq]
    · rw [hships]
      exact h.nonneg
    · rw [hships]
      intro t ht e he
      rw [is_out_congr hsize]
      exact h.inb t ht e he
    · rw [hships, hbusyeq]
      intro t ht h0 e he
      exact List.mem_append.mpr (Or.inl (h.sunkBusy t ht h0 e he))
  · have hsmem : s ∈ b.ships := by
      rw [hships]
      simp
    have hlv1 : 1 ≤ s.lives := by
      have hnn := h.nonneg s hsmem
      rcases eq_or_lt_of_le hnn with h0 | h0
      · exact absurd (h.sunkBusy s hsmem h0.symm d hmem) hbusy
      · omega
    have hinb' : ∀ t ∈ b'.ships, ∀ e ∈ t.dots, ¬ b'.is_out e := by
      rw [hships']
      intro t ht e he
      rw [is_out_congr hsize]
      rcases List.mem_append.mp ht with h1 | h1
      · exact h.inb t (by rw [hships]; exact List.mem_append.mpr (Or.inl h1)) e he
      · rcases List.mem_cons.mp h1 with rfl | h2
        · exact h.inb s hsmem e he
        · exact h.inb t (by rw [hships]; simp [h2]) e he
    rcases hsub with ⟨hlv, hr, hbusyeq, hcount⟩ | ⟨hlv, hr, hcount, hbsub, hbsup, hcov⟩
    · refine ⟨?_, ?_, hinb', ?_⟩
      · rw [hcount, h.countEq, hships, hships']
        have h1 : ¬ (s.lives = 0) := by omega
        have h2 : ¬ (s.lives - 1 = 0) := by omega
        simp [List.filter_append, List.filter_cons, h1, h2]
      · rw [hships']
        intro t ht
        rcases List.mem_append.mp ht with h1 | h1
        · exact h.nonneg t (by rw [hships]; exact List.mem_append.mpr (Or.inl h1))
        · rcases List.mem_cons.mp h1 with rfl | h2
          · simp only
            omega
          · exact h.nonneg t (by rw [hships]; simp [h2])
      · rw [hships', hbusyeq]
        intro t ht h0 e he
        rcases List.mem_append.mp ht with h1 | h1
        · exact List.mem_append.mpr (Or.inl
            (h.sunkBusy t (by rw [hships]; exact List.mem_append.mpr (Or.inl h1)) h0 e he))
        · rcases List.mem_cons.mp h1 with rfl | h2
          · simp only at h0
            omega
          · exact List.mem_append.mpr (Or.inl
              (h.sunkBusy t (by rw [hships]; simp [h2]) h0 e he))
    · have hlvz : s.lives = 1 := by omega
      refine ⟨?_, ?_, hinb', ?_⟩
      · rw [hcount, h.countEq, hships, hships']
        have h1 : ¬ (s.lives = 0) := by omega
        have h2 : s.lives - 1 = 0 := by omega
        simp [List.filter_append, List.filter_cons, h1, h2]
        omega
      · rw [hships']
        intro t ht
        rcases List.mem_append.mp ht with h1 | h1
        · exact h.nonneg t (by rw [hships]; exact List.mem_append.mpr (Or.inl h1))
        · rcases List.mem_cons.mp h1 with rfl | h2
          · simp only
            omega
          · exact h.nonneg t (by rw [hships]; simp [h2])
      · rw [hships']
        intro t ht h0 e he
        rcases List.mem_append.mp ht with h1 | h1
        · exact hbsup (List.mem_append.mpr (Or.inl
            (h.sunkBusy t (by rw [hships]; exact List.mem_append.mpr (Or.inl h1)) h0 e he)))
        · rcases List.mem_cons.mp h1 with rfl | h2
          · exact hcov e (dots_subset_contourDots he) (h.inb s hsmem e he)
          · exact hbsup (List.mem_append.mpr (Or.inl
              (h.sunkBusy t (by rw [hships]; simp [h2]) h0 e he)))

lemma hinv_fire {b0 b : Board} (h0 : HInv b0) (h : FireReach b0 b) : HInv b := by
  induction h with
  | refl => exact h0
  | step d r hr hsh ih => exact hinv_shot ih hsh

/-- The board reached by: place a length-1 ship at the origin, begin, sink
it, begin again, and fire at the same cell once more. -/
def c7CexBoard : Board :=
  ((((((((mkBoard 6).add_ship (mkShip ⟨0, 0⟩ true 1)).2).begin).shot ⟨0, 0⟩).2).begin).shot
    ⟨0, 0⟩).2

/-- C7 counterexample: a board reachable by a sequence of `add_ship`,
`begin` and `shot` operations on which the sunk counter is 2 while no owned
vessel has lives 0 — the claim's invariant fails for arbitrary operation
sequences because `begin` clears the busy set and lets a sunk vessel be hit
again. -/
theorem c7_counterexample :
    OpReach c7CexBoard ∧ c7CexBoard.count = 2 ∧
      c7CexBoard.ships.filter (fun s => decide (s.lives = 0)) = [] := by
  refine ⟨?_, by decide, by decide⟩
  exact OpReach.fire ⟨0, 0⟩ false
    (OpReach.beg (OpReach.fire ⟨0, 0⟩ false
      (OpReach.beg (OpReach.add ⟨0, 0⟩ true 1 (OpReach.base 6) (by omega) rfl)) rfl)) rfl

/-- C7 (amended): on every grid reachable through the grid lifecycle — any
placement-phase `add_ship` calls with vessels of positive length, one
`begin`, then any sequence of completed `shot` calls — the sunk counter
equals the number of owned vessels with lives = 0; moreover any single
`shot` call changes the counter by 0 or by exactly +1 (it never decreases). -/
theorem c7_sunk_counter_lifecycle (b0 b : Board)
    (hsetup : SetupReach b0) (hlen : ∀ s ∈ b0.ships, 1 ≤ s.length)
    (hfire : FireReach b0.begin b) :
    b.count = (b.ships.filter fun s => decide (s.lives = 0)).length ∧
    ∀ d : Dot, (b.shot d).2.count = b.count ∨ (b.shot d).2.count = b.count + 1 := by
  have hinv := hinv_fire (hinv_begin (setup_inv hsetup) hlen) hfire
  exact ⟨hinv.countEq, fun d => shot_count_mono b d⟩

/-- C7 witness: the amended invariant at a concrete two-shot game on a
one-ship fleet. -/
theorem c7_sunk_counter_lifecycle_witness :
    ((((((mkBoard 6).add_ship (mkShip ⟨0, 0⟩ true 1)).2).begin).shot ⟨0, 0⟩).2.count =
      (((((((mkBoard 6).add_ship (mkShip ⟨0, 0⟩ true 1)).2).begin).shot
        ⟨0, 0⟩).2).ships.filter fun s => decide (s.lives = 0)).length) ∧
    ∀ d : Dot,
      ((((((mkBoard 6).add_ship (mkShip ⟨0, 0⟩ true 1)).2).begin).shot ⟨0, 0⟩).2.shot d).2.count =
        (((((mkBoard 6).add_ship (mkShip ⟨0, 0⟩ true 1)).2).begin).shot ⟨0, 0⟩).2.count ∨
      ((((((mkBoard 6).add_ship (mkShip ⟨0, 0⟩ true 1)).2).begin).shot ⟨0, 0⟩).2.shot d).2.count =
        (((((mkBoard 6).add_ship (mkShip ⟨0, 0⟩ true 1)).2).begin).shot ⟨0, 0⟩).2.count + 1 :=
  c7_sunk_counter_lifecycle ((mkBoard 6).add_ship (mkShip ⟨0, 0⟩ true 1)).2 _
    (SetupReach.add ⟨0, 0⟩ true 1 (SetupReach.base 6) rfl)
    (by decide)
    (FireReach.step ⟨0, 0⟩ false (FireReach.refl _) rfl)

/-!  Helper lemmas for the AI candidate-set analysis. -/

lemma shipSep_symm {s t : Ship} (h : ShipSep s t) : ShipSep t s :=
  fun q hq p hp hn => h p hp q hq (near_symm hn)

lemma sep_of_ne {l : List Ship} (hp : l.Pairwise ShipSep) {s t : Ship}
    (hs : s ∈ l) (ht : t ∈ l) (hne : s ≠ t) : ShipSep s t :=
  List.Pairwise.forall (fun _ _ h2 => shipSep_symm h2) hp hs ht hne

lemma pairwise_sep_replace {l1 l2 : List Ship} {s : Ship} (k : Int)
    (h : (l1 ++ s :: l2).Pairwise ShipSep) :
    (l1 ++ { s with lives := k } :: l2).Pairwise ShipSep := by
  rw [List.pairwise_append] at h ⊢
  obtain ⟨h1, h2, h3⟩ := h
  rw [List.pairwise_cons] at h2 ⊢
  refine ⟨h1, ⟨fun b hb => h2.1 b hb, h2.2⟩, fun a ha b hb => ?_⟩
  rcases List.mem_cons.mp hb with rfl | hb2
  · exact h3 a ha s (List.mem_cons_self s l2)
  · exact h3 a ha b (List.mem_cons_of_mem s hb2)

lemma sep_sides {l1 l2 : List Ship} {s : Ship}
    (h : (l1 ++ s :: l2).Pairwise ShipSep) :
    (∀ t ∈ l1, ShipSep s t) ∧ (∀ t ∈ l2, ShipSep s t) := by
  rw [List.pairwise_append] at h
  obtain ⟨-, h2, h3⟩ := h
  rw [List.pairwise_cons] at h2
  exact ⟨fun t ht => shipSep_symm (h3 t ht s (List.mem_cons_self s l2)), h2.1⟩

lemma Ship.dots_length (s : Ship) : s.dots.length = s.length := by
  simp [Ship.dots]

lemma mem_brain_single {a c : Dot} {busy : List Dot} :
    c ∈ ai_brain [a] busy ↔
      c ∉ busy ∧
        (c = { x := a.x + 1, y := a.y } ∨ c = { x := a.x - 1, y := a.y } ∨
         c = { x := a.x, y := a.y + 1 } ∨ c = { x := a.x, y := a.y - 1 }) := by
  simp [ai_brain, List.mem_filter, and_comm]

lemma mem_brain_pair {a a2 c : Dot} {busy : List Dot} :
    c ∈ ai_brain [a, a2] busy ↔
      c ∉ busy ∧
        (if a.x = a2.x then
          c = { x := a.x, y := min a.y a2.y - 1 } ∨ c = { x := a.x, y := max a.y a2.y + 1 }
         else
          c = { x := min a.x a2.x - 1, y := a.y } ∨ c = { x := max a.x a2.x + 1, y := a.y }) := by
  by_cases hx : a.x = a2.x <;>
    simp [ai_brain, hx, List.mem_filter, and_comm, or_comm]

lemma brain_single_orthAdj {a c : Dot} {busy : List Dot}
    (h : c ∈ ai_brain [a] busy) : orthAdj c a := by
  rcases (mem_brain_single.mp h).2 with rfl | rfl | rfl | rfl <;>
    · unfold orthAdj
      dsimp only
      omega

lemma brain_pair_near {a a2 c : Dot} {busy : List Dot}
    (h : c ∈ ai_brain [a, a2] busy) (hadj : orthAdj a a2) :
    near c a ∨ near c a2 := by
  have h2 := (mem_brain_pair.mp h).2
  unfold orthAdj at hadj
  unfold near
  by_cases hx : a.x = a2.x
  · rw [if_pos hx] at h2
    rcases h2 with rfl | rfl <;> dsimp only <;> omega
  · rw [if_neg hx] at h2
    rcases h2 with rfl | rfl <;> dsimp only <;> omega

lemma mem_allCells {c : Dot} :
    c ∈ allCells ↔ 0 ≤ c.x ∧ c.x < 6 ∧ 0 ≤ c.y ∧ c.y < 6 := by
  unfold allCells
  simp only [List.mem_flatMap, List.mem_map, List.mem_range]
  constructor
  · rintro ⟨i, hi, j, hj, rfl⟩
    dsimp only
    omega
  · rintro ⟨h1, h2, h3, h4⟩
    refine ⟨c.x.toNat, by omega, c.y.toNat, by omega, ?_⟩
    cases c
    dsimp only at h1 h2 h3 h4 ⊢
    simp only [Dot.mk.injEq]
    omega

lemma exists_not_of_filter_lt {α : Type} {p : α → Bool} {l : List α}
    (h : (l.filter p).length < l.length) : ∃ t ∈ l, ¬ p t := by
  by_contra hc
  push_neg at hc
  rw [List.filter_eq_self.mpr (by simpa using hc)] at h
  omega

/-!  The play-phase invariant behind the AI candidate-set safety claim. -/

/-- A vessel untouched since `begin`: full lives and no busy cell. -/
def FreshShip (busy : List Dot) (s : Ship) : Prop :=
  s.lives = (s.length : Int) ∧ ∀ d ∈ s.dots, d ∉ busy

/-- A sunk vessel: no lives, every cell busy. -/
def SunkShip (busy : List Dot) (s : Ship) : Prop :=
  s.lives = 0 ∧ ∀ d ∈ s.dots, d ∈ busy

/-- The vessel currently hunted by the AI: its busy cells are exactly the
remembered hits and it is still afloat. -/
def HuntedShip (busy : List Dot) (s : Ship) (hits : List Dot) : Prop :=
  s.lives = (s.length : Int) - hits.length ∧ 0 < s.lives ∧
  (∀ a ∈ hits, a ∈ s.dots) ∧ (∀ d ∈ s.dots, d ∈ busy ↔ d ∈ hits)

/-- All vessels other than the hunted one are untouched or sunk. -/
def OthersSpare (b : Board) (s : Ship) : Prop :=
  ∀ t ∈ b.ships, t = s ∨ FreshShip b.busy t ∨ SunkShip b.busy t

/-- Relation between the AI hit memory and the enemy board. -/
def PState (prev : List Dot) (b : Board) : Prop :=
  match prev with
  | [] => ∀ t ∈ b.ships, FreshShip b.busy t ∨ SunkShip b.busy t
  | [a] => ∃ s ∈ b.ships, HuntedShip b.busy s [a] ∧ OthersSpare b s
  | [a, a2] => ∃ s ∈ b.ships, HuntedShip b.busy s [a, a2] ∧ orthAdj a a2 ∧ OthersSpare b s
  | _ => False

/-- Invariant maintained along `Reach`: a 6x6 board with the seven-vessel
fleet, separated in-bounds vessels, an accurate sunk counter, and the
hit-memory relation `PState`. -/
structure PInv (prev : List Dot) (b : Board) : Prop where
  size6 : b.size = 6
  nships : b.ships.length = 7
  lenB : ∀ s ∈ b.ships, 1 ≤ s.length ∧ s.length ≤ 3
  inb : ∀ s ∈ b.ships, ∀ d ∈ s.dots, ¬ b.is_out d
  sep : b.ships.Pairwise ShipSep
  countEq : b.count = (b.ships.filter fun s => decide (s.lives = 0)).length
  state : PState prev b

lemma pstate_ship_cases {prev : List Dot} {b : Board} (h : PState prev b)
    {t : Ship} (ht : t ∈ b.ships) :
    FreshShip b.busy t ∨ SunkShip b.busy t ∨
      (0 < t.lives ∧ ∃ hits, HuntedShip b.busy t hits) := by
  rcases prev with _ | ⟨a, _ | ⟨a2, _ | ⟨a3, rest⟩⟩⟩
  · rcases h t ht with hf | hs
    · exact Or.inl hf
    · exact Or.inr (Or.inl hs)
  · obtain ⟨s, hs, hh, ho⟩ := h
    rcases ho t ht with rfl | hf | hsk
    · exact Or.inr (Or.inr ⟨hh.2.1, [a], hh⟩)
    · exact Or.inl hf
    · exact Or.inr (Or.inl hsk)
  · obtain ⟨s, hs, hh, hadj, ho⟩ := h
    rcases ho t ht with rfl | hf | hsk
    · exact Or.inr (Or.inr ⟨hh.2.1, [a, a2], hh⟩)
    · exact Or.inl hf
    · exact Or.inr (Or.inl hsk)
  · exact absurd h (by simp [PState])

lemma pinv_to_hinv {prev : List Dot} {b : Board} (h : PInv prev b) : HInv b := by
  refine ⟨h.countEq, ?_, h.inb, ?_⟩
  · intro t ht
    have hlen := (h.lenB t ht).1
    rcases pstate_ship_cases h.state ht with hf | hsk | hh
    · have := hf.1
      omega
    · have := hsk.1
      omega
    · have := hh.1
      omega
  · intro t ht h0 d hd
    have hlen := (h.lenB t ht).1
    rcases pstate_ship_cases h.state ht with hf | hsk | hh
    · have := hf.1
      omega
    · exact hsk.2 d hd
    · have := hh.1
      omega

lemma sep_not_mem {s t : Ship} (hsep : ShipSep s t) {d : Dot} (hd : d ∈ s.dots) :
    d ∉ t.dots :=
  fun hmem => hsep d hd d hmem (near_refl d)

lemma mem_mid {α : Type} {l1 l2 : List α} {s t : α} (ht : t ∈ l1 ++ s :: l2) :
    t = s ∨ t ∈ l1 ∨ t ∈ l2 := by
  rcases List.mem_append.mp ht with h | h
  · exact Or.inr (Or.inl h)
  · rcases List.mem_cons.mp h with h2 | h2
    · exact Or.inl h2
    · exact Or.inr (Or.inr h2)

lemma mid_mem {α : Type} {l1 l2 : List α} (s : α) {t : α} (h : t ∈ l1 ∨ t ∈ l2) :
    t ∈ l1 ++ s :: l2 := by
  rcases h with h | h
  · exact List.mem_append.mpr (Or.inl h)
  · exact List.mem_append.mpr (Or.inr (List.mem_cons_of_mem s h))

lemma fresh_extend {busy : List Dot} {t : Ship} {d : Dot}
    (hf : FreshShip busy t) (hd : d ∉ t.dots) : FreshShip (busy ++ [d]) t := by
  refine ⟨hf.1, fun e he hmem => ?_⟩
  rcases List.mem_append.mp hmem with h | h
  · exact hf.2 e he h
  · rw [List.mem_singleton] at h
    subst h
    exact hd he

lemma sunk_mono {busy busy' : List Dot} {t : Ship}
    (hs : SunkShip busy t) (hsub : busy ⊆ busy') : SunkShip busy' t :=
  ⟨hs.1, fun e he => hsub (hs.2 e he)⟩

lemma hunted_extend_miss {busy : List Dot} {s : Ship} {hits : List Dot} {d : Dot}
    (hh : HuntedShip busy s hits) (hd : d ∉ s.dots) :
    HuntedShip (busy ++ [d]) s hits := by
  refine ⟨hh.1, hh.2.1, hh.2.2.1, fun e he => ?_⟩
  rw [← hh.2.2.2 e he]
  constructor
  · intro hmem
    rcases List.mem_append.mp hmem with h | h
    · exact h
    · rw [List.mem_singleton] at h
      subst h
      exact absurd he hd
  · intro hmem
    exact List.mem_append.mpr (Or.inl hmem)

lemma fresh_preserved_sink {busy busy' : List Dot} {t t0 : Ship} {d : Dot}
    (hf : FreshShip busy t) (hsep : ShipSep t0 t) (hlen : 1 ≤ t0.length)
    (hd : d ∈ t0.dots)
    (hbsub : ∀ c ∈ busy', c ∈ busy ++ [d] ∨ c ∈ contourDots t0) :
    FreshShip busy' t := by
  refine ⟨hf.1, fun e he hmem => ?_⟩
  rcases hbsub e hmem with h | h
  · rcases List.mem_append.mp h with h2 | h2
    · exact hf.2 e he h2
    · rw [List.mem_singleton] at h2
      subst h2
      exact sep_not_mem hsep hd he
  · obtain ⟨p, hp, hnear⟩ := contourDots_mem_near hlen h
    exact hsep p hp e he (near_symm hnear)

lemma pstate_miss {prev : List Dot} {b b' : Board} {d : Dot}
    (hst : PState prev b) (hships : b'.ships = b.ships)
    (hbusy : b'.busy = b.busy ++ [d]) (hmiss : ∀ t ∈ b.ships, d ∉ t.dots) :
    PState prev b' := by
  rcases prev with _ | ⟨a, _ | ⟨a2, _ | ⟨a3, rest⟩⟩⟩
  · intro t ht
    rw [hships] at ht
    rw [hbusy]
    rcases hst t ht with hf | hs
    · exact Or.inl (fresh_extend hf (hmiss t ht))
    · exact Or.inr (sunk_mono hs (by intro e he; exact List.mem_append.mpr (Or.inl he)))
  · obtain ⟨s, hs, hh, ho⟩ := hst
    refine ⟨s, by rw [hships]; exact hs, ?_, ?_⟩
    · rw [hbusy]
      exact hunted_extend_miss hh (hmiss s hs)
    · intro t ht
      rw [hships] at ht
      rw [hbusy]
      rcases ho t ht with rfl | hf | hsk
      · exact Or.inl rfl
      · exact Or.inr (Or.inl (fresh_extend hf (hmiss t ht)))
      · exact Or.inr (Or.inr (sunk_mono hsk
          (by intro e he; exact List.mem_append.mpr (Or.inl he))))
  · obtain ⟨s, hs, hh, hadj, ho⟩ := hst
    refine ⟨s, by rw [hships]; exact hs, ?_, hadj, ?_⟩
    · rw [hbusy]
      exact hunted_extend_miss hh (hmiss s hs)
    · intro t ht
      rw [hships] at ht
      rw [hbusy]
      rcases ho t ht with rfl | hf | hsk
      · exact Or.inl rfl
      · exact Or.inr (Or.inl (fresh_extend hf (hmiss t ht)))
      · exact Or.inr (Or.inr (sunk_mono hsk
          (by intro e he; exact List.mem_append.mpr (Or.inl he))))
  · exact absurd hst (by simp [PState])

lemma pinv_frame {prev prev' : List Dot} {b b' : Board} {d : Dot} {r : Bool}
    (h : PInv prev b) (hsh : b.shot d = (.ok r, b'))
    (hst : PState prev' b') : PInv prev' b' := by
  obtain ⟨hout, hbusy, hsize, hc⟩ := shot_ok_cases hsh
  have hhi := hinv_shot (pinv_to_hinv h) hsh
  refine ⟨by rw [hsize, h.size6], ?_, ?_, hhi.inb, ?_, hhi.countEq, hst⟩
  · rcases hc with ⟨-, -, hships, -⟩ | ⟨l1, s, l2, hships, -, -, hships', -⟩
    · rw [hships, h.nships]
    · have := h.nships
      rw [hships] at this
      rw [hships']
      simp only [List.length_append, List.length_cons] at this ⊢
      omega
  · rcases hc with ⟨-, -, hships, -⟩ | ⟨l1, s, l2, hships, -, -, hships', -⟩
    · rw [hships]
      exact h.lenB
    · intro t ht
      rw [hships'] at ht
      rcases mem_mid ht with rfl | ht2
      · exact h.lenB s (by rw [hships]; exact List.mem_append.mpr (Or.inr (List.mem_cons_self s l2)))
      · exact h.lenB t (by rw [hships]; exact mid_mem s ht2)
  · rcases hc with ⟨-, -, hships, -⟩ | ⟨l1, s, l2, hships, -, -, hships', -⟩
    · rw [hships]
      exact h.sep
    · rw [hships']
      apply pairwise_sep_replace
      rw [← hships]
      exact h.sep

lemma pinv_step {prev : List Dot} {b b' : Board} {d : Dot} {r : Bool}
    (h : PInv prev b) (hd : d ∈ ai_brain prev b.busy) (hsh : b.shot d = (.ok r, b')) :
    PInv (updPrev prev d r b.count b'.count) b' := by
  obtain ⟨hout, hbusyd, hsize, hc⟩ := shot_ok_cases hsh
  rcases hc with ⟨hmiss, hr, hships, hbusy, hcount⟩ |
    ⟨l1, t0, l2, hships, hclean, hmemd, hships', hsub⟩
  · subst hr
    have hupd : updPrev prev d false b.count b'.count = prev := by
      unfold updPrev
      rw [hcount, if_neg (by omega), if_neg (by simp)]
    rw [hupd]
    exact pinv_frame h hsh (pstate_miss h.state hships hbusy hmiss)
  · have ht0mem : t0 ∈ b.ships := by
      rw [hships]
      exact List.mem_append.mpr (Or.inr (List.mem_cons_self _ _))
    have hsep2 := sep_sides (show (l1 ++ t0 :: l2).Pairwise ShipSep by
      rw [← hships]; exact h.sep)
    have hdnot : ∀ t, (t ∈ l1 ∨ t ∈ l2) → d ∉ t.dots := by
      intro t ht
      rcases ht with ht | ht
      · exact hclean t ht
      · exact sep_not_mem (hsep2.2 t ht) hmemd
    have hsept0 : ∀ t, (t ∈ l1 ∨ t ∈ l2) → ShipSep t0 t := by
      intro t ht
      rcases ht with ht | ht
      · exact hsep2.1 t ht
      · exact hsep2.2 t ht
    have hlenb := h.lenB t0 ht0mem
    have ht0'mem : ({ t0 with lives := t0.lives - 1 }) ∈ b'.ships := by
      rw [hships']
      exact List.mem_append.mpr (Or.inr (List.mem_cons_self _ _))
    rcases hpv : prev with _ | ⟨a, _ | ⟨a2, _ | ⟨a3, rest⟩⟩⟩ <;> rw [hpv] at hd
    · have hf : FreshShip b.busy t0 := by
        rcases (hpv ▸ h.state : PState [] b) t0 ht0mem with hf | hs
        · exact hf
        · exact absurd (hs.2 d hmemd) hbusyd
      rcases hsub with ⟨hlv, hr, hbusy, hcount⟩ | ⟨hlv, hr, hcount, hbsub, hbsup, hcov⟩
      · subst hr
        have hupd : updPrev [] d true b.count b'.count = [d] := by
          unfold updPrev
          rw [hcount, if_neg (by omega), if_pos rfl]
          rfl
        rw [hupd]
        refine pinv_frame h hsh ?_
        refine ⟨{ t0 with lives := t0.lives - 1 }, ht0'mem, ⟨?_, ?_, ?_, ?_⟩, ?_⟩
        · have hfl := hf.1
          dsimp only
          simp only [List.length_cons, List.length_nil]
          omega
        · dsimp only
          omega
        · intro x hx
          rw [List.mem_singleton] at hx
          subst hx
          exact hmemd
        · intro e he
          rw [hbusy]
          simp only [List.mem_append, List.mem_singleton]
          constructor
          · rintro (h1 | h1)
            · exact absurd h1 (hf.2 e he)
            · exact h1
          · intro h1
            exact Or.inr h1
        · intro t ht
          rw [hships'] at ht
          rcases mem_mid ht with rfl | ht2
          · exact Or.inl rfl
          · have htb : t ∈ b.ships := by rw [hships]; exact mid_mem t0 ht2
            rw [hbusy]
            rcases (hpv ▸ h.state : PState [] b) t htb with hf2 | hs2
            · exact Or.inr (Or.inl (fresh_extend hf2 (hdnot t ht2)))
            · exact Or.inr (Or.inr (sunk_mono hs2
                (fun e he => List.mem_append.mpr (Or.inl he))))
      · subst hr
        have hupd : updPrev [] d false b.count b'.count = [] := by
          unfold updPrev
          rw [hcount, if_pos (by omega)]
        rw [hupd]
        refine pinv_frame h hsh ?_
        intro t ht
        rw [hships'] at ht
        rcases mem_mid ht with rfl | ht2
        · right
          constructor
          · have hfl := hf.1
            have hl1 := hlenb.1
            dsimp only
            omega
          · intro e he
            exact hcov e (dots_subset_contourDots he) (h.inb t0 ht0mem e he)
        · have htb : t ∈ b.ships := by rw [hships]; exact mid_mem t0 ht2
          rcases (hpv ▸ h.state : PState [] b) t htb with hf2 | hs2
          · exact Or.inl (fresh_preserved_sink hf2 (hsept0 t ht2) hlenb.1 hmemd hbsub)
          · exact Or.inr (sunk_mono hs2
              (fun e he => hbsup (List.mem_append.mpr (Or.inl he))))
    · obtain ⟨s, hsmem, hh, ho⟩ := (hpv ▸ h.state : PState [a] b)
      have hadj_da : orthAdj d a := brain_single_orthAdj hd
      have hamem : a ∈ s.dots := hh.2.2.1 a (List.mem_singleton_self a)
      have habusy : a ∈ b.busy := (hh.2.2.2 a hamem).mpr (List.mem_singleton_self a)
      have ht0s : t0 = s := by
        rcases ho t0 ht0mem with h1 | h1 | h1
        · exact h1
        · by_cases hne : t0 = s
          · exact hne
          · exact absurd (orthAdj_near hadj_da)
              (sep_of_ne h.sep ht0mem hsmem hne d hmemd a hamem)
        · exact absurd (h1.2 d hmemd) hbusyd
      subst ht0s
      have hhl := hh.1
      have hhp := hh.2.1
      simp only [List.length_cons, List.length_nil] at hhl
      rcases hsub with ⟨hlv, hr, hbusy, hcount⟩ | ⟨hlv, hr, hcount, hbsub, hbsup, hcov⟩
      · subst hr
        have hupd : updPrev [a] d true b.count b'.count = [a, d] := by
          unfold updPrev
          rw [hcount, if_neg (by omega), if_pos rfl]
          rfl
        rw [hupd]
        refine pinv_frame h hsh ?_
        refine ⟨{ t0 with lives := t0.lives - 1 }, ht0'mem, ⟨?_, ?_, ?_, ?_⟩,
          orthAdj_symm hadj_da, ?_⟩
        · dsimp only
          simp only [List.length_cons, List.length_nil]
          omega
        · dsimp only
          omega
        · intro x hx
          rcases List.mem_cons.mp hx with rfl | hx2
          · exact hamem
          · rw [List.mem_singleton] at hx2
            subst hx2
            exact hmemd
        · intro e he
          rw [hbusy]
          simp only [List.mem_append, List.mem_singleton, List.mem_cons,
            List.not_mem_nil, or_false]
          have hchar := hh.2.2.2 e he
          simp only [List.mem_singleton] at hchar
          constructor
          · rintro (h1 | h1)
            · exact Or.inl (hchar.mp h1)
            · exact Or.inr h1
          · rintro (h1 | h1)
            · exact Or.inl (hchar.mpr h1)
            · exact Or.inr h1
        · intro t ht
          rw [hships'] at ht
          rcases mem_mid ht with rfl | ht2
          · exact Or.inl rfl
          · have htb : t ∈ b.ships := by rw [hships]; exact mid_mem t0 ht2
            rw [hbusy]
            rcases ho t htb with rfl | hf2 | hs2
            · exact absurd hmemd (hdnot t ht2)
            · exact Or.inr (Or.inl (fresh_extend hf2 (hdnot t ht2)))
            · exact Or.inr (Or.inr (sunk_mono hs2
                (fun e he => List.mem_append.mpr (Or.inl he))))
      · subst hr
        have hupd : updPrev [a] d false b.count b'.count = [] := by
          unfold updPrev
          rw [hcount, if_pos (by omega)]
        rw [hupd]
        refine pinv_frame h hsh ?_
        intro t ht
        rw [hships'] at ht
        rcases mem_mid ht with rfl | ht2
        · right
          constructor
          · dsimp only
            omega
          · intro e he
            exact hcov e (dots_subset_contourDots he) (h.inb t0 ht0mem e he)
        · have htb : t ∈ b.ships := by rw [hships]; exact mid_mem t0 ht2
          rcases ho t htb with rfl | hf2 | hs2
          · exact absurd hmemd (hdnot t ht2)
          · exact Or.inl (fresh_preserved_sink hf2 (hsept0 t ht2) hlenb.1 hmemd hbsub)
          · exact Or.inr (sunk_mono hs2
              (fun e he => hbsup (List.mem_append.mpr (Or.inl he))))
    · obtain ⟨s, hsmem, hh, hadj, ho⟩ := (hpv ▸ h.state : PState [a, a2] b)
      have hnear2 : near d a ∨ near d a2 := brain_pair_near hd hadj
      have hamem : a ∈ s.dots := hh.2.2.1 a (by simp)
      have ha2mem : a2 ∈ s.dots := hh.2.2.1 a2 (by simp)
      have habusy : a ∈ b.busy := (hh.2.2.2 a hamem).mpr (by simp)
      have ht0s : t0 = s := by
        rcases ho t0 ht0mem with h1 | h1 | h1
        · exact h1
        · by_cases hne : t0 = s
          · exact hne
          · have hsep3 := sep_of_ne h.sep ht0mem hsmem hne
            rcases hnear2 with hn | hn
            · exact absurd hn (hsep3 d hmemd a hamem)
            · exact absurd hn (hsep3 d hmemd a2 ha2mem)
        · exact absurd (h1.2 d hmemd) hbusyd
      subst ht0s
      have hhl := hh.1
      have hhp := hh.2.1
      simp only [List.length_cons, List.length_nil] at hhl
      rcases hsub with ⟨hlv, hr, hbusy, hcount⟩ | ⟨hlv, hr, hcount, hbsub, hbsup, hcov⟩
      · exfalso
        have := hlenb.2
        omega
      · subst hr
        have hupd : updPrev [a, a2] d false b.count b'.count = [] := by
          unfold updPrev
          rw [hcount, if_pos (by omega)]
        rw [hupd]
        refine pinv_frame h hsh ?_
        intro t ht
        rw [hships'] at ht
        rcases mem_mid ht with rfl | ht2
        · right
          constructor
          · dsimp only
            omega
          · intro e he
            exact hcov e (dots_subset_contourDots he) (h.inb t0 ht0mem e he)
        · have htb : t ∈ b.ships := by rw [hships]; exact mid_mem t0 ht2
          rcases ho t htb with rfl | hf2 | hs2
          · exact absurd hmemd (hdnot t ht2)
          · exact Or.inl (fresh_preserved_sink hf2 (hsept0 t ht2) hlenb.1 hmemd hbsub)
          · exact Or.inr (sunk_mono hs2
              (fun e he => hbsup (List.mem_append.mpr (Or.inl he))))
    · exact absurd (hpv ▸ h.state : PState (a :: a2 :: a3 :: rest) b) (by simp [PState])

lemma pinv_init {b : Board} (hs : SetupReach b) (hsize : b.size = 6)
    (hmap : b.ships.map Ship.length = [3, 2, 2, 1, 1, 1, 1]) : PInv [] b.begin := by
  have hi := setup_inv hs
  have hlen : ∀ s ∈ b.ships, 1 ≤ s.length ∧ s.length ≤ 3 := by
    intro s hsm
    have hm : s.length ∈ b.ships.map Ship.length := List.mem_map_of_mem _ hsm
    rw [hmap] at hm
    simp only [List.mem_cons, List.not_mem_nil, or_false] at hm
    omega
  have hn7 : b.ships.length = 7 := by
    have := congrArg List.length hmap
    simpa using this
  refine ⟨hsize, hn7, hlen, ?_, hi.sep, ?_, ?_⟩
  · intro s hsm e he
    exact hi.inb s hsm e he
  · show b.count = _
    rw [hi.countZero]
    have hnil : (b.ships.filter fun s => decide (s.lives = 0)) = [] := by
      rw [List.filter_eq_nil_iff]
      intro t ht
      have h1 := hi.livesFull t ht
      have h2 := (hlen t ht).1
      simp only [decide_eq_true_eq]
      omega
    rw [show b.begin.ships = b.ships from rfl, hnil]
    rfl
  · intro t ht
    exact Or.inl ⟨hi.livesFull t ht, fun e _ hmem => absurd hmem (List.not_mem_nil e)⟩

lemma reach_pinv {prev : List Dot} {b : Board} (h : Reach prev b) : PInv prev b := by
  induction h with
  | init hs hsize hmap => exact pinv_init hs hsize hmap
  | step d r hr hd hsh ih => exact pinv_step ih hd hsh

lemma hunted_neighbor {s : Ship} {a : Dot} (hmem : a ∈ s.dots) (hlen : 2 ≤ s.length) :
    ∃ e ∈ s.dots, e ≠ a ∧
      (e = { x := a.x + 1, y := a.y } ∨ e = { x := a.x - 1, y := a.y } ∨
       e = { x := a.x, y := a.y + 1 } ∨ e = { x := a.x, y := a.y - 1 }) := by
  rcases hh : s.horizontal
  · rw [Ship.mem_dots_vert hh] at hmem
    obtain ⟨i, hi, hax, hay⟩ := hmem
    by_cases hi2 : i + 1 < s.length
    · refine ⟨{ x := a.x + 1, y := a.y }, ?_, ?_, Or.inl rfl⟩
      · rw [Ship.mem_dots_vert hh]
        exact ⟨i + 1, hi2, by dsimp only <;> omega, by dsimp only <;> omega⟩
      · intro hcon
        rw [Dot.mk.injEq] at hcon
        omega
    · refine ⟨{ x := a.x - 1, y := a.y }, ?_, ?_, Or.inr (Or.inl rfl)⟩
      · rw [Ship.mem_dots_vert hh]
        exact ⟨i - 1, by omega, by dsimp only <;> omega, by dsimp only <;> omega⟩
      · intro hcon
        rw [Dot.mk.injEq] at hcon
        omega
  · rw [Ship.mem_dots_horiz hh] at hmem
    obtain ⟨i, hi, hax, hay⟩ := hmem
    by_cases hi2 : i + 1 < s.length
    · refine ⟨{ x := a.x, y := a.y + 1 }, ?_, ?_, Or.inr (Or.inr (Or.inl rfl))⟩
      · rw [Ship.mem_dots_horiz hh]
        exact ⟨i + 1, hi2, by dsimp only <;> omega, by dsimp only <;> omega⟩
      · intro hcon
        rw [Dot.mk.injEq] at hcon
        omega
    · refine ⟨{ x := a.x, y := a.y - 1 }, ?_, ?_, Or.inr (Or.inr (Or.inr rfl))⟩
      · rw [Ship.mem_dots_horiz hh]
        exact ⟨i - 1, by omega, by dsimp only <;> omega, by dsimp only <;> omega⟩
      · intro hcon
        rw [Dot.mk.injEq] at hcon
        omega

lemma hunted_third {s : Ship} {a a2 : Dot} (ha : a ∈ s.dots) (ha2 : a2 ∈ s.dots)
    (hadj : orthAdj a a2) (hlen : s.length = 3) :
    ∃ e ∈ s.dots, e ≠ a ∧ e ≠ a2 ∧
      (if a.x = a2.x then
        e = { x := a.x, y := min a.y a2.y - 1 } ∨ e = { x := a.x, y := max a.y a2.y + 1 }
       else
        e = { x := min a.x a2.x - 1, y := a.y } ∨ e = { x := max a.x a2.x + 1, y := a.y }) := by
  unfold orthAdj at hadj
  rcases hh : s.horizontal
  · rw [Ship.mem_dots_vert hh] at ha ha2
    obtain ⟨i, hi, hax, hay⟩ := ha
    obtain ⟨j, hj, ha2x, ha2y⟩ := ha2
    have hij : (i = 0 ∧ j = 1) ∨ (i = 1 ∧ j = 0) ∨ (i = 1 ∧ j = 2) ∨ (i = 2 ∧ j = 1) := by
      omega
    have hxne : ¬ (a.x = a2.x) := by omega
    rcases hij with ⟨hi0, hj0⟩ | ⟨hi0, hj0⟩ | ⟨hi0, hj0⟩ | ⟨hi0, hj0⟩
    · refine ⟨{ x := s.start.x + 2, y := s.start.y }, ?_, ?_, ?_, ?_⟩
      · rw [Ship.mem_dots_vert hh]
        exact ⟨2, by omega, by dsimp only <;> omega, by dsimp only <;> omega⟩
      · intro hcon; rw [Dot.mk.injEq] at hcon; omega
      · intro hcon; rw [Dot.mk.injEq] at hcon; omega
      · rw [if_neg hxne]
        exact Or.inr (by rw [Dot.mk.injEq]; omega)
    · refine ⟨{ x := s.start.x + 2, y := s.start.y }, ?_, ?_, ?_, ?_⟩
      · rw [Ship.mem_dots_vert hh]
        exact ⟨2, by omega, by dsimp only <;> omega, by dsimp only <;> omega⟩
      · intro hcon; rw [Dot.mk.injEq] at hcon; omega
      · intro hcon; rw [Dot.mk.injEq] at hcon; omega
      · rw [if_neg hxne]
        exact Or.inr (by rw [Dot.mk.injEq]; omega)
    · refine ⟨{ x := s.start.x, y := s.start.y }, ?_, ?_, ?_, ?_⟩
      · rw [Ship.mem_dots_vert hh]
        exact ⟨0, by omega, by dsimp only <;> omega, by dsimp only <;> omega⟩
      · intro hcon; rw [Dot.mk.injEq] at hcon; omega
      · intro hcon; rw [Dot.mk.injEq] at hcon; omega
      · rw [if_neg hxne]
        exact Or.inl (by rw [Dot.mk.injEq]; omega)
    · refine ⟨{ x := s.start.x, y := s.start.y }, ?_, ?_, ?_, ?_⟩
      · rw [Ship.mem_dots_vert hh]
        exact ⟨0, by omega, by dsimp only <;> omega, by dsimp only <;> omega⟩
      · intro hcon; rw [Dot.mk.injEq] at hcon; omega
      · intro hcon; rw [Dot.mk.injEq] at hcon; omega
      · rw [if_neg hxne]
        exact Or.inl (by rw [Dot.mk.injEq]; omega)
  · rw [Ship.mem_dots_horiz hh] at ha ha2
    obtain ⟨i, hi, hax, hay⟩ := ha
    obtain ⟨j, hj, ha2x, ha2y⟩ := ha2
    have hij : (i = 0 ∧ j = 1) ∨ (i = 1 ∧ j = 0) ∨ (i = 1 ∧ j = 2) ∨ (i = 2 ∧ j = 1) := by
      omega
    have hxeq : a.x = a2.x := by omega
    rcases hij with ⟨hi0, hj0⟩ | ⟨hi0, hj0⟩ | ⟨hi0, hj0⟩ | ⟨hi0, hj0⟩
    · refine ⟨{ x := s.start.x, y := s.start.y + 2 }, ?_, ?_, ?_, ?_⟩
      · rw [Ship.mem_dots_horiz hh]
        exact ⟨2, by omega, by dsimp only <;> omega, by dsimp only <;> omega⟩
      · intro hcon; rw [Dot.mk.injEq] at hcon; omega
      · intro hcon; rw [Dot.mk.injEq] at hcon; omega
      · rw [if_pos hxeq]
        exact Or.inr (by rw [Dot.mk.injEq]; omega)
    · refine ⟨{ x := s.start.x, y := s.start.y + 2 }, ?_, ?_, ?_, ?_⟩
      · rw [Ship.mem_dots_horiz hh]
        exact ⟨2, by omega, by dsimp only <;> omega, by dsimp only <;> omega⟩
      · intro hcon; rw [Dot.mk.injEq] at hcon; omega
      · intro hcon; rw [Dot.mk.injEq] at hcon; omega
      · rw [if_pos hxeq]
        exact Or.inr (by rw [Dot.mk.injEq]; omega)
    · refine ⟨{ x := s.start.x, y := s.start.y }, ?_, ?_, ?_, ?_⟩
      · rw [Ship.mem_dots_horiz hh]
        exact ⟨0, by omega, by dsimp only <;> omega, by dsimp only <;> omega⟩
      · intro hcon; rw [Dot.mk.injEq] at hcon; omega
      · intro hcon; rw [Dot.mk.injEq] at hcon; omega
      · rw [if_pos hxeq]
        exact Or.inl (by rw [Dot.mk.injEq]; omega)
    · refine ⟨{ x := s.start.x, y := s.start.y }, ?_, ?_, ?_, ?_⟩
      · rw [Ship.mem_dots_horiz hh]
        exact ⟨0, by omega, by dsimp only <;> omega, by dsimp only <;> omega⟩
      · intro hcon; rw [Dot.mk.injEq] at hcon; omega
      · intro hcon; rw [Dot.mk.injEq] at hcon; omega
      · rw [if_pos hxeq]
        exact Or.inl (by rw [Dot.mk.injEq]; omega)

/-- C5: in every state (AI hit memory, enemy board) reachable during play
with the enemy fleet not yet fully sunk, the candidate set produced by
`ai_brain` — after its phase-specific filtering and, in the search phase,
its fallbacks — is nonempty, so the uniform random selection in `AI.ask`
is applied to a nonempty list. -/
theorem c5_ai_candidates_nonempty (prev : List Dot) (b : Board)
    (h : Reach prev b) (hcount : b.count < 7) :
    ai_brain prev b.busy ≠ [] := by
  have hp := reach_pinv h
  rcases hpv : prev with _ | ⟨a, _ | ⟨a2, _ | ⟨a3, rest⟩⟩⟩
  · have hlt : (b.ships.filter fun s => decide (s.lives = 0)).length < b.ships.length := by
      rw [← hp.countEq, hp.nships]
      exact hcount
    obtain ⟨t, ht, hpt⟩ := exists_not_of_filter_lt hlt
    have hlt0 : t.lives ≠ 0 := by simpa using hpt
    have hf : FreshShip b.busy t := by
      rcases (hpv ▸ hp.state : PState [] b) t ht with hf | hs
      · exact hf
      · exact absurd hs.1 hlt0
    have hlen1 := (hp.lenB t ht).1
    have hne : t.dots ≠ [] := by
      intro hnil
      have hdl := Ship.dots_length t
      rw [hnil] at hdl
      simp at hdl
      omega
    obtain ⟨e, he⟩ := List.exists_mem_of_ne_nil t.dots hne
    have hbusye : e ∉ b.busy := hf.2 e he
    have hinb : ¬ b.is_out e := hp.inb t ht e he
    have hcell : e ∈ allCells := by
      unfold Board.is_out at hinb
      push_neg at hinb
      rw [hp.size6] at hinb
      rw [mem_allCells]
      omega
    have hmem3 : e ∈ allCells.filter (fun c => decide (c ∉ b.busy)) :=
      List.mem_filter.mpr ⟨hcell, decide_eq_true hbusye⟩
    have hdef : ai_brain [] b.busy =
        (if diag1.filter (fun c => decide (c ∉ b.busy)) ≠ [] then
          diag1.filter (fun c => decide (c ∉ b.busy))
         else if diag2.filter (fun c => decide (c ∉ b.busy)) ≠ [] then
          diag2.filter (fun c => decide (c ∉ b.busy))
         else allCells.filter (fun c => decide (c ∉ b.busy))) := rfl
    by_cases h1 : diag1.filter (fun c => decide (c ∉ b.busy)) ≠ []
    · rw [hdef, if_pos h1]
      exact h1
    · push_neg at h1
      by_cases h2 : diag2.filter (fun c => decide (c ∉ b.busy)) ≠ []
      · rw [hdef, if_neg (by rw [h1]; exact fun hx => hx rfl), if_pos h2]
        exact h2
      · push_neg at h2
        rw [hdef, if_neg (by rw [h1]; exact fun hx => hx rfl),
            if_neg (by rw [h2]; exact fun hx => hx rfl)]
        exact List.ne_nil_of_mem hmem3
  · obtain ⟨s, hsm, hh, ho⟩ := (hpv ▸ hp.state : PState [a] b)
    have hamem : a ∈ s.dots := hh.2.2.1 a (by simp)
    have hlen2 : 2 ≤ s.length := by
      have h1 := hh.1
      have h2 := hh.2.1
      simp only [List.length_cons, List.length_nil] at h1
      omega
    obtain ⟨e, hemem, hene, hecand⟩ := hunted_neighbor hamem hlen2
    have hebusy : e ∉ b.busy := by
      intro hmem
      have hch := (hh.2.2.2 e hemem).mp hmem
      rw [List.mem_singleton] at hch
      exact hene hch
    exact List.ne_nil_of_mem (mem_brain_single.mpr ⟨hebusy, hecand⟩)
  · obtain ⟨s, hsm, hh, hadj, ho⟩ := (hpv ▸ hp.state : PState [a, a2] b)
    have hamem : a ∈ s.dots := hh.2.2.1 a (by simp)
    have ha2mem : a2 ∈ s.dots := hh.2.2.1 a2 (by simp)
    have hlen3 : s.length = 3 := by
      have h1 := hh.1
      have h2 := hh.2.1
      have h3 := (hp.lenB s hsm).2
      simp only [List.length_cons, List.length_nil] at h1
      omega
    obtain ⟨e, hemem, hene, hene2, hecand⟩ := hunted_third hamem ha2mem hadj hlen3
    have hebusy : e ∉ b.busy := by
      intro hmem
      have hch := (hh.2.2.2 e hemem).mp hmem
      simp only [List.mem_cons, List.mem_singleton, List.not_mem_nil, or_false] at hch
      rcases hch with h1 | h1
      · exact hene h1
      · exact hene2 h1
    exact List.ne_nil_of_mem (mem_brain_pair.mpr ⟨hebusy, hecand⟩)
  · exact absurd (hpv ▸ hp.state : PState (a :: a2 :: a3 :: rest) b) (by simp [PState])

/-- A concrete legal placement of the fleet [3,2,2,1,1,1,1] on a 6x6 board. -/
def fb1 : Board := ((mkBoard 6).add_ship (mkShip ⟨0, 0⟩ true 3)).2
def fb2 : Board := (fb1.add_ship (mkShip ⟨0, 4⟩ true 2)).2
def fb3 : Board := (fb2.add_ship (mkShip ⟨2, 0⟩ true 2)).2
def fb4 : Board := (fb3.add_ship (mkShip ⟨2, 3⟩ true 1)).2
def fb5 : Board := (fb4.add_ship (mkShip ⟨2, 5⟩ true 1)).2
def fb6 : Board := (fb5.add_ship (mkShip ⟨4, 0⟩ true 1)).2
def fb7 : Board := (fb6.add_ship (mkShip ⟨4, 2⟩ true 1)).2

/-- C5 witness: on the concrete initial play state of the placed fleet, the
search-phase candidate set is nonempty. -/
theorem c5_ai_candidates_nonempty_witness : ai_brain [] fb7.begin.busy ≠ [] :=
  c5_ai_candidates_nonempty [] fb7.begin
    (Reach.init
      (SetupReach.add ⟨4, 2⟩ true 1
        (SetupReach.add ⟨4, 0⟩ true 1
          (SetupReach.add ⟨2, 5⟩ true 1
            (SetupReach.add ⟨2, 3⟩ true 1
              (SetupReach.add ⟨2, 0⟩ true 2
                (SetupReach.add ⟨0, 4⟩ true 2
                  (SetupReach.add ⟨0, 0⟩ true 3 (SetupReach.base 6) rfl) rfl) rfl) rfl)
              rfl) rfl) rfl)
      (by decide) (by decide))
    (by decide)
